import Mathlib

/-!
Verification of the Bananagrams training-data generator
(src/training_data/src/main.rs).

The board is modelled as a total function from (row, column) to a cell
value; on in-bounds indices this coincides with the flat
BOARD_SIZE*BOARD_SIZE buffer of the source (out-of-bounds accesses are
undefined behavior in the source).  Hands and the on-board histogram are
length-26 lists of counters, matching the `[usize; 26]` arrays.  The
recursive solver `play_further` is embedded with an explicit fuel
parameter standing for the recursion depth budget; fuel exhaustion is
reported through the same error path the source uses for its
words-checked ceiling, so every successful run of the embedding is a
successful run of the source.
-/

set_option maxHeartbeats 2000000
set_option maxRecDepth 100000

namespace Bananagrams

/-- The maximum length of any word in the dictionary (main.rs line 12). -/
def MAX_WORD_LENGTH : Nat := 17

/-- Value of an empty cell on the board (main.rs line 14). -/
def EMPTY_VALUE : Nat := 30

/-- Number of rows/columns in the board (main.rs line 16). -/
def BOARD_SIZE : Nat := 144

/-- Number of letters present on the board that can be used in a word (main.rs line 18). -/
def FILTER_LETTERS_ON_BOARD : Nat := 2

/-- Maximum number of words to check before the solver stops (main.rs line 20). -/
def MAXIMUM_WORDS_CHECKED : Nat := 500000

/-- A numeric representation of a word (`type Word = Vec<usize>`). -/
abbrev Word := List Nat

/-- A hand of letters (`type Letters = [usize; 26]`), as a list of counters. -/
abbrev Letters := List Nat

/-- The board: a total function from (row, column) to the cell value. -/
abbrev Board := Nat → Nat → Nat

/-- `Board::new`: a board filled with `EMPTY_VALUE`. -/
def Board.new : Board := fun _ _ => EMPTY_VALUE

/-- `Board::get_val`. -/
def getVal (b : Board) (row col : Nat) : Nat := b row col

/-- `Board::set_val`. -/
def setVal (b : Board) (row col v : Nat) : Board :=
  fun r c => if r = row ∧ c = col then v else b r c

/-- Read a letter counter (array indexing `letters[i]`). -/
def getL (l : Letters) (i : Nat) : Nat := l.getD i 0

/-- Increment a letter counter (`letters[i] += 1`). -/
def incL (l : Letters) (i : Nat) : Letters := l.set i (l.getD i 0 + 1)

/-- Decrement a letter counter (`letters[i] -= 1`). -/
def decL (l : Letters) (i : Nat) : Letters := l.set i (l.getD i 0 - 1)

/-- Total number of tiles counted by a hand / histogram. -/
def sumL (l : Letters) : Nat := l.sum

/-- `letters.iter().all(|count| *count == 0)`. -/
def allZero (l : Letters) : Bool := l.all (fun c => c == 0)

/-- The Rust half-open range `a..b` as a list of indices. -/
def rustRange (a b : Nat) : List Nat := List.range' a (b - a)

/-- The sequential loop of `is_makeable`: take each letter of the word from
the remaining counters, failing when a needed counter is zero. -/
def isMakeableGo : List Nat → Letters → Bool
  | [], _ => true
  | l :: rest, avail =>
    if avail.getD l 0 = 0 then false
    else isMakeableGo rest (decL avail l)

/-- `is_makeable` (main.rs lines 112-122): whether `word` can be made from
the hand `letters`.  The source clones the hand and decrements a counter
per letter, returning false when a counter is exhausted. -/
def is_makeable (word : Word) (letters : Letters) : Bool :=
  isMakeableGo word letters

/-- The walk-back loops of the validity scanners (e.g. main.rs lines
142-148): starting at index c, step toward lo while the line (read
through `get`) is non-empty; on reading an empty cell answer the index
just after it, and stop at lo without examining it. -/
def lineStart (get : Nat → Nat) (lo : Nat) : Nat → Nat
  | 0 => 0
  | c + 1 =>
    if lo < c + 1 then
      if get (c + 1) = EMPTY_VALUE then c + 2 else lineStart get lo c
    else c + 1

/-- The scan loops of the validity scanners (e.g. main.rs lines 151-166):
walk the given indices of one line, collecting contiguous non-empty cells
into `cur`; at an empty cell a collected run of length at least 2 must be
a member of `valid`, and the loop breaks once past the index `stop`
(the end of the just-played word); the run still open when the indices
run out is checked the same way. -/
def scanLine (get : Nat → Nat) (stop : Nat) (valid : List Word) :
    List Nat → List Nat → Bool
  | [], cur => !(decide (1 < cur.length) && !(valid.contains cur))
  | i :: rest, cur =>
    if get i = EMPTY_VALUE then
      if decide (1 < cur.length) && !(valid.contains cur) then false
      else if stop < i then true
      else scanLine get stop valid rest []
    else scanLine get stop valid rest (cur ++ [get i])

/-- `is_board_valid_horizontal` (main.rs lines 138-202): check the row of
the played word from the start of the connected run, and the touched run
of each column the word crosses. -/
def is_board_valid_horizontal (b : Board) (min_col max_col min_row max_row row start_col end_col : Nat)
    (valid_words : List Word) : Bool :=
  let minimum_col := max (lineStart (fun c => getVal b row c) min_col start_col) min_col
  scanLine (fun c => getVal b row c) end_col valid_words
      (rustRange minimum_col (max_col + 1)) []
  &&
  (rustRange start_col (end_col + 1)).all (fun col_idx =>
    let minimum_row := max (lineStart (fun r => getVal b r col_idx) min_row row) min_row
    scanLine (fun r => getVal b r col_idx) row valid_words
        (rustRange minimum_row (max_row + 1)) [])

/-- `is_board_valid_vertical` (main.rs lines 218-286): the transpose of the
horizontal scanner. -/
def is_board_valid_vertical (b : Board) (min_col max_col min_row max_row start_row end_row col : Nat)
    (valid_words : List Word) : Bool :=
  let minimum_row := max (lineStart (fun r => getVal b r col) min_row start_row) min_row
  scanLine (fun r => getVal b r col) end_row valid_words
      (rustRange minimum_row (max_row + 1)) []
  &&
  (rustRange start_row (end_row + 1)).all (fun row_idx =>
    let minimum_col := max (lineStart (fun c => getVal b row_idx c) min_col col) min_col
    scanLine (fun c => getVal b row_idx c) col valid_words
        (rustRange minimum_col (max_col + 1)) [])

/-- Modelled from the spec: the first cell of the maximal run of
contiguous non-empty cells containing cell `c` of a line (walking down
from `c`, whose own emptiness is not examined). -/
def runStart (get : Nat → Nat) : Nat → Nat
  | 0 => 0
  | c + 1 => if get c = EMPTY_VALUE then c + 1 else runStart get c

/-- Modelled from the spec: walk upward from `c` through non-empty cells,
for at most `fuel` steps. -/
def runEndGo (get : Nat → Nat) : Nat → Nat → Nat
  | c, 0 => c
  | c, fuel + 1 => if get (c + 1) = EMPTY_VALUE then c else runEndGo get (c + 1) fuel

/-- Modelled from the spec: the last cell of the maximal run of contiguous
non-empty cells containing cell `c` of a line, all of whose non-empty
cells lie at indices at most `hi`. -/
def runEnd (get : Nat → Nat) (hi c : Nat) : Nat := runEndGo get c (hi - c)

/-- Modelled from the spec: the letters of the run of cells `s..e` of a
line, as a word. -/
def runCells (get : Nat → Nat) (s e : Nat) : List Nat :=
  (rustRange s (e + 1)).map get

/-- Modelled from the spec: cells `s..e` are a maximal run of contiguous
non-empty cells: all non-empty, delimited by an empty cell (or the edge)
on either side. -/
def IsMaxRun (get : Nat → Nat) (s e : Nat) : Prop :=
  s ≤ e ∧ (∀ i, s ≤ i → i ≤ e → get i ≠ EMPTY_VALUE)
    ∧ get (e + 1) = EMPTY_VALUE ∧ (s = 0 ∨ get (s - 1) = EMPTY_VALUE)

/-- `LetterUsage` (main.rs lines 290-297). -/
inductive LetterUsage
  | Remaining
  | Overused
  | Finished
deriving DecidableEq, Repr

/-- `Direction` (main.rs lines 318-324). -/
inductive Direction
  | Horizontal
  | Vertical
deriving DecidableEq, Repr

/-- The cell written for letter i of a word played at (row, col). -/
def posOf (dir : Direction) (row col i : Nat) : Nat × Nat :=
  match dir with
  | .Horizontal => (row, col + i)
  | .Vertical => (row + i, col)

/-- The adjacency test of a horizontal `play_word` (main.rs lines 360-362):
the word starts just after an occupied cell, or ends just before one
(a condition that is in fact unsatisfiable after the bounds check), or
some cell of its span has an occupied vertical neighbor. -/
def validLocH (b : Board) (word : Word) (row_idx col_idx : Nat) : Bool :=
  ((!(col_idx == 0) && !(getVal b row_idx (col_idx - 1) == EMPTY_VALUE))
    || (decide (BOARD_SIZE - col_idx ≤ word.length)
        && !(getVal b row_idx (col_idx + word.length) == EMPTY_VALUE)))
  || (rustRange col_idx (col_idx + word.length)).any (fun c_idx =>
      (decide (row_idx < BOARD_SIZE - 1) && !(getVal b (row_idx + 1) c_idx == EMPTY_VALUE))
      || (decide (0 < row_idx) && !(getVal b (row_idx - 1) c_idx == EMPTY_VALUE)))

/-- The adjacency test of a vertical `play_word` (main.rs lines 398-400). -/
def validLocV (b : Board) (word : Word) (row_idx col_idx : Nat) : Bool :=
  ((!(row_idx == 0) && !(getVal b (row_idx - 1) col_idx == EMPTY_VALUE))
    || (decide (BOARD_SIZE - row_idx ≤ word.length)
        && !(getVal b (row_idx + word.length) col_idx == EMPTY_VALUE)))
  || (rustRange row_idx (row_idx + word.length)).any (fun r_idx =>
      (decide (col_idx < BOARD_SIZE - 1) && !(getVal b r_idx (col_idx + 1) == EMPTY_VALUE))
      || (decide (0 < col_idx) && !(getVal b r_idx (col_idx - 1) == EMPTY_VALUE)))

/-- One outcome of `play_word`: success flag, indices played, remaining
letters and usage, as in the Ok tuple of the source. -/
abbrev PlayOutcome := Bool × List (Nat × Nat) × Letters × LetterUsage

/-- The writing loop of `play_word` (main.rs lines 367-389 and 405-427):
for letter i, an empty target cell is written, recorded and paid for from
the remaining letters (`Overused` when the counter is already zero); an
occupied cell must match the letter, else the placement is rejected; a
placement that writes no new cell is rejected at the end. -/
def playWordLoop (dir : Direction) (row col : Nat) :
    List Nat → Nat → Board → Letters → List (Nat × Nat) → Letters → Bool →
    PlayOutcome × Board × Letters
  | [], _, b, hist, played, rem, overlaps =>
    if allZero rem && !overlaps then ((true, played, rem, .Finished), b, hist)
    else ((!overlaps, played, rem, .Remaining), b, hist)
  | w :: rest, i, b, hist, played, rem, overlaps =>
    let p := posOf dir row col i
    if getVal b p.1 p.2 = EMPTY_VALUE then
      let b1 := setVal b p.1 p.2 w
      let hist1 := incL hist w
      let played1 := played ++ [p]
      if rem.getD w 0 = 0 then ((false, played1, rem, .Overused), b1, hist1)
      else playWordLoop dir row col rest (i + 1) b1 hist1 played1 (decL rem w) false
    else if getVal b p.1 p.2 ≠ w then ((false, played, rem, .Remaining), b, hist)
    else playWordLoop dir row col rest (i + 1) b hist played rem overlaps

/-- `play_word` (main.rs lines 351-431).  Returns the Ok tuple or the
out-of-bounds error, together with the board and on-board histogram after
the call (both are mutated in place in the source). -/
def play_word (word : Word) (row_idx col_idx : Nat) (b : Board) (direction : Direction)
    (letters : Letters) (letters_on_board : Letters) :
    Except Unit PlayOutcome × Board × Letters :=
  match direction with
  | .Horizontal =>
    if BOARD_SIZE ≤ col_idx + word.length then (.error (), b, letters_on_board)
    else
      if !(validLocH b word row_idx col_idx) then
        (.ok (false, [], letters, .Remaining), b, letters_on_board)
      else
        let r := playWordLoop .Horizontal row_idx col_idx word 0 b letters_on_board [] letters true
        (.ok r.1, r.2.1, r.2.2)
  | .Vertical =>
    if BOARD_SIZE ≤ row_idx + word.length then (.error (), b, letters_on_board)
    else
      if !(validLocV b word row_idx col_idx) then
        (.ok (false, [], letters, .Remaining), b, letters_on_board)
      else
        let r := playWordLoop .Vertical row_idx col_idx word 0 b letters_on_board [] letters true
        (.ok r.1, r.2.1, r.2.2)

/-- The loop of `check_filter_after_play` (main.rs lines 440-458); a usize
counter satisfies `*elem <= 0` exactly when it is zero. -/
def checkFilterAfterPlayGo (played : List Nat) : Letters → List Nat → Bool → Bool
  | _, [], _ => true
  | letters, l :: rest, seenNeg =>
    let elem := letters.getD l 0
    if elem == 0 && !(played.contains l) then false
    else if elem == 0 && seenNeg then false
    else if elem == 0 then checkFilterAfterPlayGo played letters rest true
    else checkFilterAfterPlayGo played (decL letters l) rest seenNeg

/-- `check_filter_after_play` (main.rs lines 440-458): which words can be
played right after the first, allowing one letter drawn from the set of
letters of the root word. -/
def check_filter_after_play (letters : Letters) (word_being_checked : Word)
    (played_on_board : List Nat) : Bool :=
  checkFilterAfterPlayGo played_on_board letters word_being_checked false

/-- The loop of `check_filter_after_play_later` (main.rs lines 467-487). -/
def checkFilterLaterGo : Letters → Letters → List Nat → Nat → Bool
  | _, _, [], _ => true
  | cur, boardL, l :: rest, num_from_board =>
    if cur.getD l 0 == 0 then
      if num_from_board == FILTER_LETTERS_ON_BOARD then false
      else if boardL.getD l 0 == 0 then false
      else checkFilterLaterGo cur (decL boardL l) rest (num_from_board + 1)
    else checkFilterLaterGo (decL cur l) boardL rest num_from_board

/-- `check_filter_after_play_later` (main.rs lines 467-487): whether the
word can be made from the hand plus at most `FILTER_LETTERS_ON_BOARD`
letters donated by the on-board histogram. -/
def check_filter_after_play_later (current_letters board_letters : Letters)
    (word_being_checked : Word) : Bool :=
  checkFilterLaterGo current_letters board_letters word_being_checked 0

/-- `undo_play` (main.rs lines 494-499): reset each recorded index to
`EMPTY_VALUE`, decrementing the histogram counter of the letter found
there (the counter is read before the cell is cleared). -/
def undo_play : Board → List (Nat × Nat) → Letters → Board × Letters
  | b, [], hist => (b, hist)
  | b, idx :: rest, hist =>
    let hist1 := decL hist (getVal b idx.1 idx.2)
    let b1 := setVal b idx.1 idx.2 EMPTY_VALUE
    undo_play b1 rest hist1

/-- The result of `play_further`: the Ok tuple (success flag and bounding
box) or the error for out-of-bounds / too many words checked. -/
abbrev PFOut := Except Unit (Bool × Nat × Nat × Nat × Nat)

/-- The in-place state threaded through the solver: board, on-board
histogram and the words-checked counter. -/
abbrev SolverState := Board × Letters × Nat

/-- A `play_further` return value together with the final in-place state. -/
abbrev PFResult := PFOut × Board × Letters × Nat

/-- Outcome of a solver loop: an early return, or the state in which the
loop continues. -/
inductive Step
  | done (r : PFResult)
  | cont (st : SolverState)

/-- The type of the recursive call available to the solver loops. -/
abbrev Recurse := Board → Nat → Nat → Nat → Nat → List Word → List Word →
  Letters → Nat → Nat → Letters → PFResult

/-- The innermost loop body of `play_further` (e.g. main.rs lines 535-579),
iterated over the candidate origins of one word: play the word, and on an
accepted, valid placement either bubble up a finished solve or refilter
and recurse; every other case undoes the placement and goes on.  The
`Overused` arm models the source's unreachable branch by aborting. -/
def tryPositions (recurse : Recurse) (dir : Direction)
    (min_col max_col min_row max_row : Nat)
    (valid_words_vec valid_words_set : List Word)
    (letters : Letters) (depth : Nat) (word : Word) :
    List (Nat × Nat) → SolverState → Step
  | [], st => .cont st
  | (r, c) :: ps, (b, hist, wc) =>
    match play_word word r c b dir letters hist with
    | (.error _, b1, hist1) => .done (.error (), b1, hist1, wc)
    | (.ok res, b1, hist1) =>
      if res.1 then
        let new_min_col := min min_col c
        let new_max_col := match dir with
          | .Horizontal => max max_col (c + word.length)
          | .Vertical => max max_col c
        let new_min_row := min min_row r
        let new_max_row := match dir with
          | .Horizontal => max max_row r
          | .Vertical => max max_row (r + word.length)
        let okBoard := match dir with
          | .Horizontal => is_board_valid_horizontal b1 new_min_col new_max_col new_min_row
              new_max_row r c (c + word.length - 1) valid_words_set
          | .Vertical => is_board_valid_vertical b1 new_min_col new_max_col new_min_row
              new_max_row r (r + word.length - 1) c valid_words_set
        if okBoard then
          match res.2.2.2 with
          | .Finished =>
            .done (.ok (true, new_min_col, new_max_col, new_min_row, new_max_row), b1, hist1, wc)
          | .Remaining =>
            let new_vec := valid_words_vec.filter
              (fun w => check_filter_after_play_later letters hist1 w)
            match recurse b1 new_min_col new_max_col new_min_row new_max_row new_vec
                valid_words_set res.2.2.1 (depth + 1) wc hist1 with
            | (.ok r2, b2, hist2, wc2) =>
              if r2.1 then .done (.ok r2, b2, hist2, wc2)
              else
                let u := undo_play b2 res.2.1 hist2
                tryPositions recurse dir min_col max_col min_row max_row valid_words_vec
                  valid_words_set letters depth word ps (u.1, u.2, wc2)
            | (.error e, b2, hist2, wc2) => .done (.error e, b2, hist2, wc2)
          | .Overused => .done (.error (), b1, hist1, wc)
        else
          let u := undo_play b1 res.2.1 hist1
          tryPositions recurse dir min_col max_col min_row max_row valid_words_vec
            valid_words_set letters depth word ps (u.1, u.2, wc)
      else
        let u := undo_play b1 res.2.1 hist1
        tryPositions recurse dir min_col max_col min_row max_row valid_words_vec
          valid_words_set letters depth word ps (u.1, u.2, wc)

/-- The candidate origins tried for one word in one direction
(main.rs lines 532-534 and 587-589): rows within one of the bounding box
and columns from the farthest the word could reach, row-major for
horizontal plays and column-major for vertical ones. -/
def positionsFor (dir : Direction) (min_col max_col min_row max_row : Nat) (word : Word) :
    List (Nat × Nat) :=
  match dir with
  | .Horizontal =>
    (rustRange (min_row - 1) (max_row + 2)).flatMap (fun r =>
      (rustRange (min_col - word.length) (max_col + 2)).map (fun c => (r, c)))
  | .Vertical =>
    (rustRange (min_col - 1) (max_col + 2)).flatMap (fun c =>
      (rustRange (min_row - word.length) (max_row + 2)).map (fun r => (r, c)))

/-- One word loop of `play_further` (e.g. main.rs lines 529-582): bump the
words-checked counter per word and try every candidate origin. -/
def tryWords (recurse : Recurse) (dir : Direction)
    (min_col max_col min_row max_row : Nat)
    (valid_words_vec valid_words_set : List Word)
    (letters : Letters) (depth : Nat) :
    List Word → SolverState → Step
  | [], st => .cont st
  | word :: ws, (b, hist, wc) =>
    match tryPositions recurse dir min_col max_col min_row max_row valid_words_vec
        valid_words_set letters depth word
        (positionsFor dir min_col max_col min_row max_row word) (b, hist, wc + 1) with
    | .done r => .done r
    | .cont st1 => tryWords recurse dir min_col max_col min_row max_row valid_words_vec
        valid_words_set letters depth ws st1

/-- `play_further` (main.rs lines 523-727), with an explicit fuel for the
recursion depth: after the words-checked ceiling test, odd depths try all
words horizontally and then vertically, even depths the other way around,
skipping the second pass at depth 0; when no placement leads to a solve
the call reports false with its caller's bounding box. -/
def playFurtherF : Nat → Recurse
  | 0 => fun b _ _ _ _ _ _ _ _ wc hist => (.error (), b, hist, wc)
  | fuel + 1 => fun b min_col max_col min_row max_row vec set letters depth wc hist =>
    if MAXIMUM_WORDS_CHECKED < wc then (.error (), b, hist, wc)
    else if depth % 2 = 1 then
      match tryWords (playFurtherF fuel) .Horizontal min_col max_col min_row max_row vec set
          letters depth vec (b, hist, wc) with
      | .done r => r
      | .cont (b1, hist1, wc1) =>
        match tryWords (playFurtherF fuel) .Vertical min_col max_col min_row max_row vec set
            letters depth vec (b1, hist1, wc1) with
        | .done r => r
        | .cont (b2, hist2, wc2) =>
          (.ok (false, min_col, max_col, min_row, max_row), b2, hist2, wc2)
    else
      match tryWords (playFurtherF fuel) .Vertical min_col max_col min_row max_row vec set
          letters depth vec (b, hist, wc) with
      | .done r => r
      | .cont (b1, hist1, wc1) =>
        if depth = 0 then (.ok (false, min_col, max_col, min_row, max_row), b1, hist1, wc1)
        else
          match tryWords (playFurtherF fuel) .Horizontal min_col max_col min_row max_row vec set
              letters depth vec (b1, hist1, wc1) with
          | .done r => r
          | .cont (b2, hist2, wc2) =>
            (.ok (false, min_col, max_col, min_row, max_row), b2, hist2, wc2)

/-- The root placement of `play_bananagrams` (main.rs lines 752-756):
write the word on the fresh board, fill the histogram and pay for each
letter from the hand. -/
def rootPlace (row col_start : Nat) :
    List Nat → Nat → Board → Letters → Letters → Board × Letters × Letters
  | [], _, b, hist, use => (b, hist, use)
  | w :: rest, i, b, hist, use =>
    rootPlace row col_start rest (i + 1)
      (setVal b row (col_start + i) w) (incL hist w) (decL use w)

/-- The root-word loop of `play_bananagrams` (main.rs lines 745-787): play
each candidate root word centered on a fresh board; a root word that
consumes the hand is already a solve, otherwise filter the candidate list
(the suffix starting at the root word) and run the recursive solver. -/
def rootLoop (fuel : Nat) (available_letters : Letters) (valid_words_vec : List Word) :
    List Word → Nat → Option (Board × Nat × Nat × Nat × Nat)
  | [], _ => none
  | word :: rest, wc =>
    let wc1 := wc + 1
    let col_start := BOARD_SIZE / 2 - word.length / 2
    let row := BOARD_SIZE / 2
    let r0 := rootPlace row col_start word 0 Board.new (List.replicate 26 0) available_letters
    let min_col := col_start
    let min_row := row
    let max_col := col_start + (word.length - 1)
    let max_row := row
    if allZero r0.2.2 then some (r0.1, min_col, max_col, min_row, max_row)
    else
      let new_vec := (word :: rest).filter
        (fun w => check_filter_after_play r0.2.2 w word)
      match playFurtherF fuel r0.1 min_col max_col min_row max_row new_vec
          valid_words_vec r0.2.2 0 wc1 r0.2.1 with
      | (.ok res2, b2, _, wc2) =>
        if res2.1 then some (b2, res2.2.1, res2.2.2.1, res2.2.2.2.1, res2.2.2.2.2)
        else rootLoop fuel available_letters valid_words_vec rest wc2
      | (.error _, _, _, wc2) => rootLoop fuel available_letters valid_words_vec rest wc2

/-- `play_bananagrams` (main.rs lines 737-789), with the solver fuel made
explicit: keep the makeable dictionary words and try each as root word. -/
def play_bananagrams (fuel : Nat) (available_letters : Letters) (dictionary : List Word) :
    Option (Board × Nat × Nat × Nat × Nat) :=
  let valid_words_vec := dictionary.filter (fun w => is_makeable w available_letters)
  if valid_words_vec.length = 0 then none
  else rootLoop fuel available_letters valid_words_vec valid_words_vec 0

/-- `board_to_bytes` (main.rs lines 819-832): one (row, col, letter)
byte triple per non-empty cell of the bounding box, in row-major order,
then the terminating byte 255.  The `as u8` casts of the source reduce
the values modulo 256. -/
def board_to_bytes (b : Board) (min_col max_col min_row max_row : Nat) : List Nat :=
  ((rustRange min_row (max_row + 1)).flatMap (fun row =>
    (rustRange min_col (max_col + 1)).flatMap (fun col =>
      if getVal b row col ≠ EMPTY_VALUE then
        [row % 256, col % 256, getVal b row col % 256]
      else []))) ++ [255]

/-- Modelled from the spec: the consumer side of the shard format, which
is not part of src/ ("replaying a shard's (row,col,letter) triples onto a
fresh empty board"; "sentinel byte 255 correctly delimits boards").
Reads byte triples and writes each onto the board until the sentinel 255
is met; the bytes after the sentinel, returned alongside the board, are
the following boards of the shard. -/
def replay_bytes : Board → List Nat → Board × List Nat
  | b, [] => (b, [])
  | b, x :: rest =>
    if x = 255 then (b, rest)
    else
      match rest with
      | c :: v :: rest2 => replay_bytes (setVal b x c v) rest2
      | _ => (b, [])

/-- The occupied cells of the bounding box in row-major order: exactly the
cells board_to_bytes emits one triple for. -/
def cellsRowMajor (b : Board) (min_col max_col min_row max_row : Nat) : List (Nat × Nat) :=
  (rustRange min_row (max_row + 1)).flatMap (fun row =>
    ((rustRange min_col (max_col + 1)).filter
      (fun col => !(getVal b row col == EMPTY_VALUE))).map (fun col => (row, col)))

/-- Modelled from the spec wording of the per-depth refilter ("scanning the
word's letters in order and taking each letter from the hand when
available, the letters not coverable by the hand can be drawn from the
on-board histogram using at most FILTER_LETTERS_ON_BOARD donated letters
in total and no more of any letter than the histogram currently holds"):
the budget argument counts the donations still allowed. -/
def donationCoverable : Letters → Letters → Nat → List Nat → Prop
  | _, _, _, [] => True
  | hand, board, budget, l :: rest =>
    if hand.getD l 0 = 0 then
      0 < budget ∧ 0 < board.getD l 0 ∧ donationCoverable hand (decL board l) (budget - 1) rest
    else donationCoverable (decL hand l) board budget rest

/-- Number of tiles on the board inside the given bounding box. -/
def countBox (b : Board) (min_col max_col min_row max_row : Nat) : Nat :=
  (cellsRowMajor b min_col max_col min_row max_row).length

/-- Every cell outside the given bounding box is empty: the box contains
all tiles of the board. -/
def outsideEmpty (b : Board) (min_col max_col min_row max_row : Nat) : Prop :=
  ∀ r c, ¬(min_row ≤ r ∧ r ≤ max_row ∧ min_col ≤ c ∧ c ≤ max_col) →
    getVal b r c = EMPTY_VALUE

/-- The invariant threaded through the solver: the bounding box contains
all tiles, the on-board histogram counts exactly the tiles in the box, and
histogram plus hand together hold the T tiles of the original hand. -/
structure SolveInv (b : Board) (hist : Letters) (min_col max_col min_row max_row : Nat)
    (hand : Letters) (T : Nat) : Prop where
  outside : outsideEmpty b min_col max_col min_row max_row
  count_eq : countBox b min_col max_col min_row max_row = sumL hist
  conserve : sumL hist + sumL hand = T
  hist_len : hist.length = 26
  hand_len : hand.length = 26
  cwf : min_col ≤ max_col
  rwf : min_row ≤ max_row

/-- What a recursive solver call guarantees: a successful return reports a
well-formed bounding box containing all tiles of the final board, exactly T
of them; a failed return hands back its caller's bounding box with board
and histogram restored. -/
def RecursePost (T minc maxc minr maxr : Nat) (b : Board) (hist : Letters)
    (out : PFOut) (b2 : Board) (hist2 : Letters) : Prop :=
  (∀ s mc2 Mc2 mr2 Mr2, out = .ok (s, mc2, Mc2, mr2, Mr2) → s = true →
      outsideEmpty b2 mc2 Mc2 mr2 Mr2 ∧ countBox b2 mc2 Mc2 mr2 Mr2 = T
        ∧ mc2 ≤ Mc2 ∧ mr2 ≤ Mr2)
  ∧ (∀ mc2 Mc2 mr2 Mr2, out = .ok (false, mc2, Mc2, mr2, Mr2) →
      mc2 = minc ∧ Mc2 = maxc ∧ mr2 = minr ∧ Mr2 = maxr ∧ b2 = b ∧ hist2 = hist)

def RecurseSpec (recurse : Recurse) : Prop :=
  ∀ (b : Board) (minc maxc minr maxr : Nat) (vec set : List Word)
    (letters : Letters) (depth wc : Nat) (hist : Letters) (T : Nat)
    (out : PFOut) (b2 : Board) (hist2 : Letters) (wc2 : Nat),
    SolveInv b hist minc maxc minr maxr letters T →
    recurse b minc maxc minr maxr vec set letters depth wc hist = (out, b2, hist2, wc2) →
    RecursePost T minc maxc minr maxr b hist out b2 hist2

/-- What one solver loop guarantees: an early return is a successful one
satisfying the success conditions, and falling through to the next loop
leaves board and histogram exactly as they were. -/
def StepSpec (T : Nat) (b : Board) (hist : Letters)
    (step : Step) : Prop :=
  match step with
  | .done (out, b2, _, _) =>
      ∀ s mc2 Mc2 mr2 Mr2, out = .ok (s, mc2, Mc2, mr2, Mr2) →
        s = true ∧ outsideEmpty b2 mc2 Mc2 mr2 Mr2 ∧ countBox b2 mc2 Mc2 mr2 Mr2 = T
          ∧ mc2 ≤ Mc2 ∧ mr2 ≤ Mr2
  | .cont (b2, hist2, _) => b2 = b ∧ hist2 = hist

/-! ### Concrete fixtures used by witnesses, counterexamples and failing inputs -/

/-- A board whose row 72 holds the played word AB at columns 10-11 and a
separate run XX (letter 23) at columns 20-21. -/
def c1board : Board :=
  setVal (setVal (setVal (setVal Board.new 72 10 0) 72 11 1) 72 20 23) 72 21 23

/-- A board with a single tile adjacent (on the left) to the cell (72, 71). -/
def c2board : Board := setVal Board.new 72 70 4

/-- A board with a single tile adjacent (on the left) to the cell (72, 71). -/
def c3board : Board := setVal Board.new 72 70 2

/-- A board whose only tile sits at (72, 75), immediately after the last
letter of a two-letter word played horizontally at (72, 73). -/
def c6board : Board := setVal Board.new 72 75 0

/-- A board with a single tile adjacent (on the left) to the cell (72, 71). -/
def c10board : Board := setVal Board.new 72 70 2

/-- The hand with one A and two B tiles. -/
def abHand : Letters := ((List.replicate 26 0).set 0 1).set 1 2

/-- The dictionary holding the two words AB and BA. -/
def abDict : List Word := [[0, 1], [1, 0]]

/-! ### Basic facts about boards and letter counters -/

theorem getVal_setVal_self (b : Board) (r c v : Nat) : getVal (setVal b r c v) r c = v := by
  simp [getVal, setVal]

theorem getVal_setVal_ne (b : Board) (r c v r' c' : Nat) (h : (r', c') ≠ (r, c)) :
    getVal (setVal b r c v) r' c' = getVal b r' c' := by
  simp only [getVal, setVal, ite_eq_right_iff]
  intro hc
  exact absurd (Prod.ext hc.1 hc.2) h

theorem getVal_setVal_ne2 (b : Board) (p q : Nat × Nat) (v : Nat) (h : q ≠ p) :
    getVal (setVal b p.1 p.2 v) q.1 q.2 = getVal b q.1 q.2 :=
  getVal_setVal_ne b p.1 p.2 v q.1 q.2 (fun hc => h (by
    calc q = (q.1, q.2) := rfl
    _ = (p.1, p.2) := hc
    _ = p := rfl))

theorem getD_oob (l : List Nat) (i : Nat) (h : l.length ≤ i) : l.getD i 0 = 0 := by
  simp [List.getD_eq_getElem?_getD, List.getElem?_eq_none h]

theorem lt_length_of_getD_pos (l : List Nat) (i : Nat) (h : l.getD i 0 ≠ 0) : i < l.length := by
  by_contra hlt
  exact h (getD_oob l i (Nat.le_of_not_lt hlt))

theorem set_oob (l : List Nat) (i v : Nat) (h : l.length ≤ i) : l.set i v = l := by
  induction l generalizing i with
  | nil => rfl
  | cons x xs ih =>
    cases i with
    | zero => exact absurd h (by simp)
    | succ j => simpa [List.set] using ih j (by simpa using h)

theorem getD_set_eq (l : List Nat) (i v : Nat) (h : i < l.length) :
    (l.set i v).getD i 0 = v := by
  induction l generalizing i with
  | nil => simp at h
  | cons x xs ih =>
    cases i with
    | zero => rfl
    | succ j => simpa [List.set] using ih j (by simpa using h)

theorem getD_set_ne (l : List Nat) (i j v : Nat) (h : j ≠ i) :
    (l.set i v).getD j 0 = l.getD j 0 := by
  induction l generalizing i j with
  | nil => rfl
  | cons x xs ih =>
    cases i with
    | zero => cases j with
      | zero => exact absurd rfl h
      | succ j2 => rfl
    | succ i2 => cases j with
      | zero => rfl
      | succ j2 => simpa [List.set] using ih i2 j2 (by omega)

theorem set_getD_self (l : List Nat) (i : Nat) (h : i < l.length) :
    l.set i (l.getD i 0) = l := by
  induction l generalizing i with
  | nil => rfl
  | cons x xs ih =>
    cases i with
    | zero => rfl
    | succ j => simpa [List.set] using ih j (by simpa using h)

theorem length_incL (l : Letters) (i : Nat) : (incL l i).length = l.length := by
  simp [incL]

theorem length_decL (l : Letters) (i : Nat) : (decL l i).length = l.length := by
  simp [decL]

theorem incL_oob (l : Letters) (i : Nat) (h : l.length ≤ i) : incL l i = l := by
  simp only [incL]
  exact set_oob _ _ _ h

theorem decL_oob (l : Letters) (i : Nat) (h : l.length ≤ i) : decL l i = l := by
  simp only [decL]
  exact set_oob _ _ _ h

theorem getD_incL_self (l : Letters) (i : Nat) (h : i < l.length) :
    (incL l i).getD i 0 = l.getD i 0 + 1 := by
  simp only [incL]
  exact getD_set_eq l i _ h

theorem getD_incL_ne (l : Letters) (i j : Nat) (h : j ≠ i) :
    (incL l i).getD j 0 = l.getD j 0 := by
  simp only [incL]
  exact getD_set_ne l i j _ h

theorem getD_decL_self (l : Letters) (i : Nat) :
    (decL l i).getD i 0 = l.getD i 0 - 1 := by
  rcases Nat.lt_or_ge i l.length with h | h
  · simp only [decL]
    exact getD_set_eq l i _ h
  · rw [decL_oob l i h, getD_oob l i h]

theorem getD_decL_ne (l : Letters) (i j : Nat) (h : j ≠ i) :
    (decL l i).getD j 0 = l.getD j 0 := by
  simp only [decL]
  exact getD_set_ne l i j _ h

theorem incL_comm (l : Letters) (i j : Nat) :
    incL (incL l i) j = incL (incL l j) i := by
  rcases eq_or_ne i j with rfl | hne
  · rfl
  rcases Nat.lt_or_ge i l.length with hi | hi
  · rcases Nat.lt_or_ge j l.length with hj | hj
    · simp only [incL]
      rw [getD_set_ne _ _ _ _ (Ne.symm hne), getD_set_ne _ _ _ _ hne,
        List.set_comm _ _ _ hne]
    · have h1 : (incL l i).length ≤ j := by rw [length_incL]; exact hj
      rw [incL_oob _ j h1, incL_oob _ j hj]
  · have h1 : (incL l j).length ≤ i := by rw [length_incL]; exact hi
    rw [incL_oob _ i hi, incL_oob _ i h1]

theorem decL_incL_self (l : Letters) (i : Nat) : decL (incL l i) i = l := by
  rcases Nat.lt_or_ge i l.length with h | h
  · simp only [decL, incL]
    rw [getD_set_eq _ _ _ h, Nat.add_sub_cancel, List.set_set, set_getD_self _ _ h]
  · have h2 : (incL l i).length ≤ i := by rw [length_incL]; exact h
    rw [incL_oob _ i h, decL_oob _ i h]

theorem decL_incL_ne (l : Letters) (i j : Nat) (h : i ≠ j) :
    decL (incL l i) j = incL (decL l j) i := by
  rcases Nat.lt_or_ge i l.length with hi | hi
  · rcases Nat.lt_or_ge j l.length with hj | hj
    · simp only [decL, incL]
      rw [getD_set_ne _ _ _ _ (Ne.symm h), getD_set_ne _ _ _ _ h,
        List.set_comm _ _ _ h]
    · have h1 : (incL l i).length ≤ j := by rw [length_incL]; exact hj
      rw [decL_oob _ j h1, decL_oob _ j hj]
  · have h1 : (decL l j).length ≤ i := by rw [length_decL]; exact hi
    rw [incL_oob _ i hi, incL_oob _ i h1]

theorem decL_foldl_incL (ls : List Nat) (l : Letters) (x : Nat) :
    decL (List.foldl incL (incL l x) ls) x = List.foldl incL l ls := by
  induction ls generalizing l with
  | nil => exact decL_incL_self l x
  | cons y ys ih =>
    simp only [List.foldl_cons]
    rw [incL_comm l x y] at *
    exact ih (incL l y)

theorem sumL_set (l : List Nat) (i v : Nat) (h : i < l.length) :
    sumL (l.set i v) + l.getD i 0 = sumL l + v := by
  induction l generalizing i with
  | nil => simp at h
  | cons x xs ih =>
    cases i with
    | zero => simp [sumL, List.set]; omega
    | succ j =>
      have := ih j (by simpa using h)
      simp only [sumL, List.set, List.sum_cons, List.getD_cons_succ] at *
      omega

theorem sumL_incL (l : Letters) (i : Nat) (h : i < l.length) :
    sumL (incL l i) = sumL l + 1 := by
  have := sumL_set l i (l.getD i 0 + 1) h
  simp only [incL] at *
  omega

theorem sumL_decL (l : Letters) (i : Nat) (h : l.getD i 0 ≠ 0) :
    sumL (decL l i) + 1 = sumL l := by
  have hlt := lt_length_of_getD_pos l i h
  have := sumL_set l i (l.getD i 0 - 1) hlt
  simp only [decL] at *
  omega

theorem allZero_iff (l : Letters) : allZero l = true ↔ ∀ x ∈ l, x = 0 := by
  simp [allZero]

theorem sumL_eq_zero_of_allZero (l : Letters) (h : allZero l = true) : sumL l = 0 := by
  rw [allZero_iff] at h
  simpa [sumL, List.sum_eq_zero_iff] using h

theorem length_foldl_incL (ls : List Nat) (l : Letters) :
    (List.foldl incL l ls).length = l.length := by
  induction ls generalizing l with
  | nil => rfl
  | cons x xs ih => simp [List.foldl_cons, ih, length_incL]

theorem sumL_foldl_incL (ls : List Nat) (l : Letters) (h : ∀ x ∈ ls, x < l.length) :
    sumL (List.foldl incL l ls) = sumL l + ls.length := by
  induction ls generalizing l with
  | nil => rfl
  | cons x xs ih =>
    simp only [List.foldl_cons, List.length_cons]
    rw [ih (incL l x) (fun y hy => by
      rw [length_incL]; exact h y (List.mem_cons_of_mem _ hy))]
    rw [sumL_incL l x (h x (List.mem_cons_self _ _))]
    omega

/-! ### Characterization of the writing loop of play_word -/

theorem posOf_inj (dir : Direction) (row col : Nat) {k k2 : Nat}
    (h : posOf dir row col k = posOf dir row col k2) : k = k2 := by
  cases dir <;> simp only [posOf, Prod.mk.injEq] at h <;> omega

theorem letter_shift (w : Nat) (rest : List Nat) (i k : Nat) (h : i + 1 ≤ k) :
    (w :: rest).getD (k - i) 0 = rest.getD (k - (i + 1)) 0 := by
  have h2 : k - i = (k - (i + 1)) + 1 := by omega
  rw [h2, List.getD_cons_succ]

theorem map_letter_shift (w : Nat) (rest : List Nat) (i : Nat) (ks : List Nat)
    (h : ∀ k ∈ ks, i + 1 ≤ k) :
    ks.map (fun k => rest.getD (k - (i + 1)) 0) = ks.map (fun k => (w :: rest).getD (k - i) 0) := by
  refine List.map_congr_left (fun k hk => ?_)
  rw [letter_shift w rest i k (h k hk)]

/-- Everything the writing loop of `play_word` guarantees, relative to the
state it was entered with: ks lists the indices of the word whose cells
were newly written. -/
structure PlayFacts (dir : Direction) (row col : Nat) (ws : List Nat) (i : Nat)
    (b : Board) (hist : Letters) (played : List (Nat × Nat)) (rem : Letters) (overlaps : Bool)
    (succ : Bool) (played2 : List (Nat × Nat)) (rem2 : Letters) (usage : LetterUsage)
    (b2 : Board) (hist2 : Letters) (ks : List Nat) : Prop where
  played_eq : played2 = played ++ ks.map (fun k => posOf dir row col k)
  ks_mono : List.Pairwise (· < ·) ks
  ks_mem : ∀ k ∈ ks, i ≤ k ∧ k < i + ws.length
  was_empty : ∀ k ∈ ks,
    getVal b (posOf dir row col k).1 (posOf dir row col k).2 = EMPTY_VALUE
  new_val : ∀ k ∈ ks,
    getVal b2 (posOf dir row col k).1 (posOf dir row col k).2 = ws.getD (k - i) 0
  frame : ∀ p : Nat × Nat, p ∉ ks.map (fun k => posOf dir row col k) →
    getVal b2 p.1 p.2 = getVal b p.1 p.2
  hist_eq : hist2 = (ks.map (fun k => ws.getD (k - i) 0)).foldl incL hist
  rem_eq : usage ≠ .Overused → rem2 = (ks.map (fun k => ws.getD (k - i) 0)).foldl decL rem
  rem_sum : usage ≠ .Overused → sumL rem2 + ks.length = sumL rem
  rem_len : rem2.length = rem.length
  letter_lt : usage ≠ .Overused → ∀ k ∈ ks, ws.getD (k - i) 0 < rem.length
  succ_usage : succ = true → usage ≠ .Overused
  fin_iff : usage = .Finished ↔ (succ = true ∧ allZero rem2 = true)
  succ_over : succ = true → overlaps = false ∨ ks ≠ []
  succ_filled : succ = true → ∀ j, j < ws.length →
    getVal b2 (posOf dir row col (i + j)).1 (posOf dir row col (i + j)).2 = ws.getD j 0
  rem_mismatch : succ = false → usage = .Remaining →
    (ks = [] ∧ overlaps = true ∧ played2 = played) ∨
    (∃ j, i ≤ j ∧ j < i + ws.length ∧
      getVal b2 (posOf dir row col j).1 (posOf dir row col j).2 ≠ ws.getD (j - i) 0)

theorem playWordLoop_spec (dir : Direction) (row col : Nat) (ws : List Nat) :
    ∀ (i : Nat) (b : Board) (hist : Letters) (played : List (Nat × Nat)) (rem : Letters)
      (overlaps : Bool) (succ : Bool) (played2 : List (Nat × Nat)) (rem2 : Letters)
      (usage : LetterUsage) (b2 : Board) (hist2 : Letters),
    playWordLoop dir row col ws i b hist played rem overlaps
      = ((succ, played2, rem2, usage), b2, hist2) →
    ∃ ks, PlayFacts dir row col ws i b hist played rem overlaps
      succ played2 rem2 usage b2 hist2 ks := by
  induction ws with
  | nil =>
    intro i b hist played rem overlaps succ played2 rem2 usage b2 hist2 h
    simp only [playWordLoop] at h
    refine ⟨[], ?_⟩
    by_cases hcond : (allZero rem && !overlaps) = true
    · rw [if_pos hcond] at h
      simp only [Prod.mk.injEq] at h
      obtain ⟨⟨hs, hp, hr, hu⟩, hb, hh⟩ := h
      subst hs hp hr hu hb hh
      obtain ⟨hz, hov⟩ : allZero rem = true ∧ (!overlaps) = true := by simpa using hcond
      exact
        { played_eq := by simp
          ks_mono := List.Pairwise.nil
          ks_mem := fun k hk => absurd hk (List.not_mem_nil k)
          was_empty := fun k hk => absurd hk (List.not_mem_nil k)
          new_val := fun k hk => absurd hk (List.not_mem_nil k)
          frame := fun p _ => rfl
          hist_eq := rfl
          rem_eq := fun _ => rfl
          rem_sum := fun _ => rfl
          rem_len := rfl
          letter_lt := fun _ k hk => absurd hk (List.not_mem_nil k)
          succ_usage := fun _ => by decide
          fin_iff := by simp [hz]
          succ_over := fun _ => Or.inl (by simpa using hov)
          succ_filled := fun _ j hj => by simp at hj
          rem_mismatch := fun hfalse _ => by cases hfalse }
    · rw [if_neg hcond] at h
      simp only [Prod.mk.injEq] at h
      obtain ⟨⟨hs, hp, hr, hu⟩, hb, hh⟩ := h
      subst hs hp hr hu hb hh
      exact
        { played_eq := by simp
          ks_mono := List.Pairwise.nil
          ks_mem := fun k hk => absurd hk (List.not_mem_nil k)
          was_empty := fun k hk => absurd hk (List.not_mem_nil k)
          new_val := fun k hk => absurd hk (List.not_mem_nil k)
          frame := fun p _ => rfl
          hist_eq := rfl
          rem_eq := fun _ => rfl
          rem_sum := fun _ => rfl
          rem_len := rfl
          letter_lt := fun _ k hk => absurd hk (List.not_mem_nil k)
          succ_usage := fun _ => by decide
          fin_iff := by
            constructor
            · intro hfin; exact absurd hfin (by decide)
            · rintro ⟨h1, h2⟩
              exact absurd (by simp [h1, h2] : (allZero rem && !overlaps) = true) hcond
          succ_over := fun hsucc => Or.inl (by simpa using hsucc)
          succ_filled := fun _ j hj => by simp at hj
          rem_mismatch := fun hfalse _ => Or.inl ⟨rfl, by simpa using hfalse, rfl⟩ }
  | cons w rest ih =>
    intro i b hist played rem overlaps succ played2 rem2 usage b2 hist2 h
    simp only [playWordLoop] at h
    by_cases hempty : getVal b (posOf dir row col i).1 (posOf dir row col i).2 = EMPTY_VALUE
    · rw [if_pos hempty] at h
      by_cases hz : rem.getD w 0 = 0
      · -- Overused: the cell was written but the hand has no such letter
        rw [if_pos hz] at h
        simp only [Prod.mk.injEq] at h
        obtain ⟨⟨hs, hp, hr, hu⟩, hb, hh⟩ := h
        subst hs hp hr hu hb hh
        refine ⟨[i], ?_⟩
        exact
          { played_eq := by simp
            ks_mono := by simp
            ks_mem := by
              intro k hk
              simp only [List.mem_singleton] at hk
              subst hk
              simp
            was_empty := by
              intro k hk
              simp only [List.mem_singleton] at hk
              subst hk
              exact hempty
            new_val := by
              intro k hk
              simp only [List.mem_singleton] at hk
              subst hk
              simp [getVal_setVal_self]
            frame := by
              intro p hrc
              simp only [List.map_cons, List.map_nil, List.mem_singleton] at hrc
              exact getVal_setVal_ne2 b _ p w hrc
            hist_eq := by simp
            rem_eq := fun hno => absurd rfl hno
            rem_sum := fun hno => absurd rfl hno
            rem_len := rfl
            letter_lt := fun hno => absurd rfl hno
            succ_usage := fun hfalse => by cases hfalse
            fin_iff := by
              constructor
              · intro hfin; exact absurd hfin (by decide)
              · rintro ⟨h1, _⟩; cases h1
            succ_over := fun hfalse => by cases hfalse
            succ_filled := fun hfalse => by cases hfalse
            rem_mismatch := fun _ hrem => absurd hrem (by decide) }
      · -- a fresh cell is written and paid for; recurse
        rw [if_neg hz] at h
        obtain ⟨ks1, F⟩ := ih (i + 1) _ _ _ _ _ _ _ _ _ _ _ h
        have hks1 : ∀ k ∈ ks1, i + 1 ≤ k := fun k hk => (F.ks_mem k hk).1
        have hpos_ne : ∀ k ∈ ks1, posOf dir row col k ≠ posOf dir row col i := by
          intro k hk hcontra
          have := posOf_inj dir row col hcontra
          have := hks1 k hk
          omega
        have hnotin : posOf dir row col i ∉ ks1.map (fun k => posOf dir row col k) := by
          simp only [List.mem_map]
          rintro ⟨k, hk, hkeq⟩
          exact hpos_ne k hk hkeq
        have hvali : getVal b2 (posOf dir row col i).1 (posOf dir row col i).2 = w := by
          rw [F.frame _ hnotin]
          exact getVal_setVal_self b _ _ w
        refine ⟨i :: ks1, ?_⟩
        exact
          { played_eq := by
              rw [F.played_eq]
              simp
            ks_mono := by
              rw [List.pairwise_cons]
              exact ⟨fun k hk => by have := hks1 k hk; omega, F.ks_mono⟩
            ks_mem := by
              intro k hk
              rcases List.mem_cons.mp hk with rfl | hk2
              · simp
              · have := (F.ks_mem k hk2)
                simp only [List.length_cons] at *
                omega
            was_empty := by
              intro k hk
              rcases List.mem_cons.mp hk with rfl | hk2
              · exact hempty
              · have := F.was_empty k hk2
                rwa [getVal_setVal_ne2 b (posOf dir row col i) (posOf dir row col k) w
                  (hpos_ne k hk2)] at this
            new_val := by
              intro k hk
              rcases List.mem_cons.mp hk with rfl | hk2
              · simpa using hvali
              · rw [letter_shift w rest i k (hks1 k hk2)]
                exact F.new_val k hk2
            frame := by
              intro p hrc
              simp only [List.map_cons, List.mem_cons] at hrc
              push_neg at hrc
              rw [F.frame p (by simpa using hrc.2)]
              exact getVal_setVal_ne2 b _ p w hrc.1
            hist_eq := by
              rw [F.hist_eq, map_letter_shift w rest i ks1 hks1]
              simp [List.foldl_cons, incL]
            rem_eq := by
              intro hno
              rw [F.rem_eq hno, map_letter_shift w rest i ks1 hks1]
              simp [List.foldl_cons, decL]
            rem_sum := by
              intro hno
              have h1 := F.rem_sum hno
              have h2 := sumL_decL rem w hz
              simp only [List.length_cons]
              omega
            rem_len := by rw [F.rem_len, length_decL]
            letter_lt := by
              intro hno k hk
              rcases List.mem_cons.mp hk with rfl | hk2
              · simpa using lt_length_of_getD_pos rem w hz
              · rw [letter_shift w rest i k (hks1 k hk2)]
                have := F.letter_lt hno k hk2
                rwa [length_decL] at this
            succ_usage := F.succ_usage
            fin_iff := F.fin_iff
            succ_over := fun _ => Or.inr (by simp)
            succ_filled := by
              intro hsucc j hj
              cases j with
              | zero => simpa using hvali
              | succ j2 =>
                have h1 := F.succ_filled hsucc j2 (by simpa using hj)
                have h2 : i + 1 + j2 = i + (j2 + 1) := by omega
                rw [h2] at h1
                simpa using h1
            rem_mismatch := by
              intro hfalse hremu
              rcases F.rem_mismatch hfalse hremu with ⟨_, hov, _⟩ | ⟨j, hj1, hj2, hj3⟩
              · cases hov
              · refine Or.inr ⟨j, by omega, by simp only [List.length_cons]; omega, ?_⟩
                rw [letter_shift w rest i j hj1]
                exact hj3 }
    · rw [if_neg hempty] at h
      by_cases hne : getVal b (posOf dir row col i).1 (posOf dir row col i).2 ≠ w
      · -- mismatch with an occupied cell: the placement is rejected
        rw [if_pos hne] at h
        simp only [Prod.mk.injEq] at h
        obtain ⟨⟨hs, hp, hr, hu⟩, hb, hh⟩ := h
        subst hs hp hr hu hb hh
        refine ⟨[], ?_⟩
        exact
          { played_eq := by simp
            ks_mono := List.Pairwise.nil
            ks_mem := fun k hk => absurd hk (List.not_mem_nil k)
            was_empty := fun k hk => absurd hk (List.not_mem_nil k)
            new_val := fun k hk => absurd hk (List.not_mem_nil k)
            frame := fun p _ => rfl
            hist_eq := rfl
            rem_eq := fun _ => rfl
            rem_sum := fun _ => rfl
            rem_len := rfl
            letter_lt := fun _ k hk => absurd hk (List.not_mem_nil k)
            succ_usage := fun hfalse => by cases hfalse
            fin_iff := by
              constructor
              · intro hfin; exact absurd hfin (by decide)
              · rintro ⟨h1, _⟩; cases h1
            succ_over := fun hfalse => by cases hfalse
            succ_filled := fun hfalse => by cases hfalse
            rem_mismatch := by
              intro _ _
              refine Or.inr ⟨i, le_refl i, by simp, ?_⟩
              simpa using hne }
      · -- pure overlap: the occupied cell matches the letter
        push_neg at hne
        rw [if_neg (by simp [hne])] at h
        obtain ⟨ks1, F⟩ := ih (i + 1) _ _ _ _ _ _ _ _ _ _ _ h
        have hks1 : ∀ k ∈ ks1, i + 1 ≤ k := fun k hk => (F.ks_mem k hk).1
        have hpos_ne : ∀ k ∈ ks1, posOf dir row col k ≠ posOf dir row col i := by
          intro k hk hcontra
          have := posOf_inj dir row col hcontra
          have := hks1 k hk
          omega
        have hnotin : posOf dir row col i ∉ ks1.map (fun k => posOf dir row col k) := by
          simp only [List.mem_map]
          rintro ⟨k, hk, hkeq⟩
          exact hpos_ne k hk hkeq
        refine ⟨ks1, ?_⟩
        exact
          { played_eq := F.played_eq
            ks_mono := F.ks_mono
            ks_mem := by
              intro k hk
              have := F.ks_mem k hk
              simp only [List.length_cons]
              omega
            was_empty := F.was_empty
            new_val := by
              intro k hk
              rw [letter_shift w rest i k (hks1 k hk)]
              exact F.new_val k hk
            frame := F.frame
            hist_eq := by rw [F.hist_eq, map_letter_shift w rest i ks1 hks1]
            rem_eq := by
              intro hno
              rw [F.rem_eq hno, map_letter_shift w rest i ks1 hks1]
            rem_sum := F.rem_sum
            rem_len := F.rem_len
            letter_lt := by
              intro hno k hk
              rw [letter_shift w rest i k (hks1 k hk)]
              exact F.letter_lt hno k hk
            succ_usage := F.succ_usage
            fin_iff := F.fin_iff
            succ_over := F.succ_over
            succ_filled := by
              intro hsucc j hj
              cases j with
              | zero =>
                have hfr : getVal b2 (posOf dir row col i).1 (posOf dir row col i).2
                    = getVal b (posOf dir row col i).1 (posOf dir row col i).2 :=
                  F.frame _ hnotin
                simpa [hfr] using hne
              | succ j2 =>
                have h1 := F.succ_filled hsucc j2 (by simpa using hj)
                have h2 : i + 1 + j2 = i + (j2 + 1) := by omega
                rw [h2] at h1
                simpa using h1
            rem_mismatch := by
              intro hfalse hremu
              rcases F.rem_mismatch hfalse hremu with ⟨hk1, hov, hp1⟩ | ⟨j, hj1, hj2, hj3⟩
              · exact Or.inl ⟨hk1, hov, hp1⟩
              · refine Or.inr ⟨j, by omega, by simp only [List.length_cons]; omega, ?_⟩
                rw [letter_shift w rest i j hj1]
                exact hj3 }

/-! ### Facts about play_word and undo_play -/

theorem play_word_spec (word : Word) (row col : Nat) (b : Board) (dir : Direction)
    (letters hist : Letters) (succ : Bool) (played2 : List (Nat × Nat)) (rem2 : Letters)
    (usage : LetterUsage) (b2 : Board) (hist2 : Letters)
    (h : play_word word row col b dir letters hist
      = (.ok (succ, played2, rem2, usage), b2, hist2)) :
    ∃ ks, PlayFacts dir row col word 0 b hist [] letters true
      succ played2 rem2 usage b2 hist2 ks := by
  have hreject : succ = false → played2 = [] → rem2 = letters → usage = .Remaining →
      b2 = b → hist2 = hist →
      ∃ ks, PlayFacts dir row col word 0 b hist [] letters true
        succ played2 rem2 usage b2 hist2 ks := by
    intro h1 h2 h3 h4 h5 h6
    subst h1 h2 h3 h4 h5 h6
    refine ⟨[], ?_⟩
    exact
      { played_eq := rfl
        ks_mono := List.Pairwise.nil
        ks_mem := fun k hk => absurd hk (List.not_mem_nil k)
        was_empty := fun k hk => absurd hk (List.not_mem_nil k)
        new_val := fun k hk => absurd hk (List.not_mem_nil k)
        frame := fun p _ => rfl
        hist_eq := rfl
        rem_eq := fun _ => rfl
        rem_sum := fun _ => rfl
        rem_len := rfl
        letter_lt := fun _ k hk => absurd hk (List.not_mem_nil k)
        succ_usage := fun hfalse => by cases hfalse
        fin_iff := by
          constructor
          · intro hfin; exact absurd hfin (by decide)
          · rintro ⟨h1, _⟩; cases h1
        succ_over := fun hfalse => by cases hfalse
        succ_filled := fun hfalse => by cases hfalse
        rem_mismatch := fun _ _ => Or.inl ⟨rfl, rfl, rfl⟩ }
  cases dir with
  | Horizontal =>
    simp only [play_word] at h
    by_cases hb : BOARD_SIZE ≤ col + word.length
    · rw [if_pos hb] at h
      simp only [Prod.mk.injEq] at h
      exact absurd h.1 (by simp)
    · rw [if_neg hb] at h
      by_cases hv : validLocH b word row col = true
      · rw [if_neg (by simp [hv])] at h
        rcases hr : playWordLoop .Horizontal row col word 0 b hist [] letters true
          with ⟨⟨s, p, r, u⟩, bb, hh⟩
        rw [hr] at h
        simp only [Prod.mk.injEq, Except.ok.injEq] at h
        obtain ⟨⟨hs, hp, hrr, hu⟩, hbb, hhh⟩ := h
        subst hs hp hrr hu hbb hhh
        exact playWordLoop_spec .Horizontal row col word 0 b hist [] letters true _ _ _ _ _ _ hr
      · have hv2 : validLocH b word row col = false := by
          simpa using hv
        rw [hv2] at h
        simp only [Bool.not_false, if_true, Prod.mk.injEq, Except.ok.injEq] at h
        obtain ⟨⟨hs, hp, hrr, hu⟩, hbb, hhh⟩ := h
        exact hreject hs.symm hp.symm hrr.symm hu.symm hbb.symm hhh.symm
  | Vertical =>
    simp only [play_word] at h
    by_cases hb : BOARD_SIZE ≤ row + word.length
    · rw [if_pos hb] at h
      simp only [Prod.mk.injEq] at h
      exact absurd h.1 (by simp)
    · rw [if_neg hb] at h
      by_cases hv : validLocV b word row col = true
      · rw [if_neg (by simp [hv])] at h
        rcases hr : playWordLoop .Vertical row col word 0 b hist [] letters true
          with ⟨⟨s, p, r, u⟩, bb, hh⟩
        rw [hr] at h
        simp only [Prod.mk.injEq, Except.ok.injEq] at h
        obtain ⟨⟨hs, hp, hrr, hu⟩, hbb, hhh⟩ := h
        subst hs hp hrr hu hbb hhh
        exact playWordLoop_spec .Vertical row col word 0 b hist [] letters true _ _ _ _ _ _ hr
      · have hv2 : validLocV b word row col = false := by
          simpa using hv
        rw [hv2] at h
        simp only [Bool.not_false, if_true, Prod.mk.injEq, Except.ok.injEq] at h
        obtain ⟨⟨hs, hp, hrr, hu⟩, hbb, hhh⟩ := h
        exact hreject hs.symm hp.symm hrr.symm hu.symm hbb.symm hhh.symm

theorem play_word_error_iff (word : Word) (row col : Nat) (b : Board) (dir : Direction)
    (letters hist : Letters) :
    (play_word word row col b dir letters hist).1 = .error () ↔
      ((dir = .Horizontal ∧ BOARD_SIZE ≤ col + word.length) ∨
       (dir = .Vertical ∧ BOARD_SIZE ≤ row + word.length)) := by
  cases dir with
  | Horizontal =>
    simp only [play_word]
    by_cases hb : BOARD_SIZE ≤ col + word.length
    · rw [if_pos hb]
      simp [hb]
    · rw [if_neg hb]
      by_cases hv : validLocH b word row col = true
      · rw [if_neg (by simp [hv])]
        simp [hb]
      · have hv2 : validLocH b word row col = false := by simpa using hv
        rw [hv2]
        simp [hb]
  | Vertical =>
    simp only [play_word]
    by_cases hb : BOARD_SIZE ≤ row + word.length
    · rw [if_pos hb]
      simp [hb]
    · rw [if_neg hb]
      by_cases hv : validLocV b word row col = true
      · rw [if_neg (by simp [hv])]
        simp [hb]
      · have hv2 : validLocV b word row col = false := by simpa using hv
        rw [hv2]
        simp [hb]

theorem undo_play_frame (cells : List (Nat × Nat)) :
    ∀ (b : Board) (hist : Letters) (p : Nat × Nat), p ∉ cells →
    getVal (undo_play b cells hist).1 p.1 p.2 = getVal b p.1 p.2 := by
  induction cells with
  | nil => intro b hist p _; rfl
  | cons x xs ih =>
    intro b hist p hp
    simp only [undo_play]
    rw [ih _ _ p (fun hmem => hp (List.mem_cons_of_mem _ hmem))]
    exact getVal_setVal_ne2 b x p EMPTY_VALUE
      (fun heq => hp (heq ▸ List.mem_cons_self _ _))

theorem undo_play_restore (cells : List (Nat × Nat)) :
    ∀ (b b2 : Board) (hist : Letters),
    List.Pairwise (· ≠ ·) cells →
    (∀ p ∈ cells, getVal b p.1 p.2 = EMPTY_VALUE) →
    (∀ p : Nat × Nat, p ∉ cells → getVal b2 p.1 p.2 = getVal b p.1 p.2) →
    undo_play b2 cells ((cells.map (fun p => getVal b2 p.1 p.2)).foldl incL hist)
      = (b, hist) := by
  induction cells with
  | nil =>
    intro b b2 hist _ _ hframe
    have hbb : b2 = b :=
      funext (fun r => funext (fun c => hframe (r, c) (List.not_mem_nil _)))
    simp only [undo_play, List.map_nil, List.foldl_nil, hbb]
  | cons x xs ih =>
    intro b b2 hist hpw hempty hframe
    obtain ⟨hx_ne, hpw2⟩ := List.pairwise_cons.mp hpw
    have hx_not : x ∉ xs := fun hmem => (hx_ne x hmem) rfl
    simp only [undo_play, List.map_cons, List.foldl_cons]
    rw [decL_foldl_incL]
    have hmap : xs.map (fun p => getVal b2 p.1 p.2)
        = xs.map (fun p => getVal (setVal b2 x.1 x.2 EMPTY_VALUE) p.1 p.2) := by
      refine List.map_congr_left (fun p hp => ?_)
      exact (getVal_setVal_ne2 b2 x p EMPTY_VALUE (fun heq => hx_not (heq ▸ hp))).symm
    rw [hmap]
    apply ih
    · exact hpw2
    · exact fun p hp => hempty p (List.mem_cons_of_mem _ hp)
    · intro p hp
      by_cases hpx : p = x
      · subst hpx
        rw [getVal_setVal_self]
        exact (hempty p (List.mem_cons_self _ _)).symm
      · rw [getVal_setVal_ne2 b2 x p EMPTY_VALUE hpx]
        exact hframe p (fun hmem => by
          rcases List.mem_cons.mp hmem with heq | hmem2
          · exact hpx heq
          · exact hp hmem2)

theorem play_then_undo (word : Word) (row col : Nat) (b : Board) (dir : Direction)
    (letters hist : Letters) (succ : Bool) (played2 : List (Nat × Nat)) (rem2 : Letters)
    (usage : LetterUsage) (b2 : Board) (hist2 : Letters)
    (h : play_word word row col b dir letters hist
      = (.ok (succ, played2, rem2, usage), b2, hist2)) :
    undo_play b2 played2 hist2 = (b, hist) := by
  obtain ⟨ks, F⟩ := play_word_spec word row col b dir letters hist _ _ _ _ _ _ h
  have hcells : played2 = ks.map (fun k => posOf dir row col k) := by
    simpa using F.played_eq
  have hpw : List.Pairwise (· ≠ ·) played2 := by
    rw [hcells]
    refine List.Pairwise.map _ ?_ F.ks_mono
    intro k k2 hlt heq
    have := posOf_inj dir row col heq
    omega
  have hemp : ∀ p ∈ played2, getVal b p.1 p.2 = EMPTY_VALUE := by
    rw [hcells]
    intro p hp
    obtain ⟨k, hk, rfl⟩ := List.mem_map.mp hp
    exact F.was_empty k hk
  have hfr : ∀ p : Nat × Nat, p ∉ played2 → getVal b2 p.1 p.2 = getVal b p.1 p.2 := by
    intro p hp
    rw [hcells] at hp
    exact F.frame p hp
  have hmap : played2.map (fun p => getVal b2 p.1 p.2)
      = ks.map (fun k => word.getD (k - 0) 0) := by
    rw [hcells, List.map_map]
    refine List.map_congr_left (fun k hk => ?_)
    exact F.new_val k hk
  have hh : hist2 = (played2.map (fun p => getVal b2 p.1 p.2)).foldl incL hist := by
    rw [hmap]
    exact F.hist_eq
  rw [hh]
  exact undo_play_restore played2 b b2 hist hpw hemp hfr

theorem getD_foldl_incL (ls : List Nat) (hist : Letters) (l : Nat) (hl : l < hist.length) :
    (ls.foldl incL hist).getD l 0 = hist.getD l 0 + ls.count l := by
  induction ls generalizing hist with
  | nil => simp
  | cons x xs ih =>
    simp only [List.foldl_cons]
    rw [ih (incL hist x) (by rw [length_incL]; exact hl)]
    by_cases hxl : x = l
    · subst hxl
      rw [getD_incL_self hist x hl, List.count_cons_self]
      omega
    · rw [getD_incL_ne hist x l (Ne.symm hxl), List.count_cons_of_ne (Ne.symm hxl)]

/-! ### Claim theorems about play_word and undo_play -/

/-- C3: for every board, hand, histogram, word, position and direction, a
call to play_word followed by undo_play on the returned played-indices list
restores the board and the letters_on_board histogram to their exact
pre-call states, for every Ok outcome of play_word (success, rejected
placement, Overused); and undo_play changes no cell outside the
played-indices list it is given.  The out-of-bounds Err outcome returns no
played-indices list and leaves board and histogram untouched by
construction. -/
theorem C3_play_undo_roundtrip :
    (∀ (word : Word) (row col : Nat) (b : Board) (dir : Direction) (letters hist : Letters)
      (out : PlayOutcome) (b2 : Board) (hist2 : Letters),
      play_word word row col b dir letters hist = (.ok out, b2, hist2) →
      undo_play b2 out.2.1 hist2 = (b, hist))
    ∧
    (∀ (b : Board) (cells : List (Nat × Nat)) (hist : Letters) (p : Nat × Nat),
      p ∉ cells → getVal (undo_play b cells hist).1 p.1 p.2 = getVal b p.1 p.2) := by
  constructor
  · intro word row col b dir letters hist out b2 hist2 h
    obtain ⟨succ, played2, rem2, usage⟩ := out
    exact play_then_undo word row col b dir letters hist succ played2 rem2 usage b2 hist2 h
  · intro b cells hist p hp
    exact undo_play_frame cells b hist p hp

/-- Witness for C3: a concrete one-letter play next to an existing tile is
undone exactly, and a concrete undo_play does not change an unlisted cell. -/
theorem C3_witness :
    undo_play (play_word [0] 72 71 c3board .Horizontal (List.replicate 26 1)
        (List.replicate 26 0)).2.1
      [(72, 71)]
      (play_word [0] 72 71 c3board .Horizontal (List.replicate 26 1)
        (List.replicate 26 0)).2.2
      = (c3board, List.replicate 26 0)
    ∧ getVal (undo_play Board.new [(5, 5)] (List.replicate 26 0)).1 7 9
      = getVal Board.new 7 9 :=
  ⟨C3_play_undo_roundtrip.1 [0] 72 71 c3board .Horizontal (List.replicate 26 1)
      (List.replicate 26 0)
      (true, [(72, 71)], (List.replicate 26 1).set 0 0, .Remaining) _ _ (by rfl),
   C3_play_undo_roundtrip.2 Board.new [(5, 5)] (List.replicate 26 0) (7, 9) (by decide)⟩

/-- C10: for every non-error call to play_word, the cells that change are
exactly the returned played-indices: they are the cells of some strictly
increasing set of word positions, each changes from EMPTY_VALUE to the
corresponding letter of the word, every cell outside the list is unchanged,
and each histogram counter grows by exactly the number of listed cells
carrying its letter — on rejected and Overused outcomes included, whose
already-written cells stay on the board.  The input hand and board values
are never mutated: the embedding passes them by value and they appear
unchanged on the right of every equation. -/
theorem C10_play_word_frame :
    ∀ (word : Word) (row col : Nat) (b : Board) (dir : Direction) (letters hist : Letters)
      (succ : Bool) (played2 : List (Nat × Nat)) (rem2 : Letters) (usage : LetterUsage)
      (b2 : Board) (hist2 : Letters),
    play_word word row col b dir letters hist = (.ok (succ, played2, rem2, usage), b2, hist2) →
    ∃ ks : List Nat,
      played2 = ks.map (fun k => posOf dir row col k) ∧
      List.Pairwise (· < ·) ks ∧
      (∀ k ∈ ks, k < word.length ∧
        getVal b (posOf dir row col k).1 (posOf dir row col k).2 = EMPTY_VALUE ∧
        getVal b2 (posOf dir row col k).1 (posOf dir row col k).2 = word.getD k 0) ∧
      (∀ p : Nat × Nat, p ∉ played2 → getVal b2 p.1 p.2 = getVal b p.1 p.2) ∧
      (∀ l, l < hist.length →
        hist2.getD l 0 = hist.getD l 0 + (ks.map (fun k => word.getD k 0)).count l) := by
  intro word row col b dir letters hist succ played2 rem2 usage b2 hist2 h
  obtain ⟨ks, F⟩ := play_word_spec word row col b dir letters hist _ _ _ _ _ _ h
  have hcells : played2 = ks.map (fun k => posOf dir row col k) := by
    simpa using F.played_eq
  have hmapeq : ks.map (fun k => word.getD (k - 0) 0) = ks.map (fun k => word.getD k 0) := by
    simp
  refine ⟨ks, hcells, F.ks_mono, ?_, ?_, ?_⟩
  · intro k hk
    refine ⟨by have := F.ks_mem k hk; omega, F.was_empty k hk, ?_⟩
    have := F.new_val k hk
    simpa using this
  · intro p hp
    rw [hcells] at hp
    exact F.frame p hp
  · intro l hl
    rw [F.hist_eq, hmapeq, getD_foldl_incL _ _ _ hl]

/-- Witness for C10 at a concrete one-letter play. -/
theorem C10_witness :
    ∃ ks : List Nat,
      [(72, 71)] = ks.map (fun k => posOf .Horizontal 72 71 k) ∧
      List.Pairwise (· < ·) ks ∧
      (∀ k ∈ ks, k < ([0] : Word).length ∧
        getVal c10board (posOf .Horizontal 72 71 k).1 (posOf .Horizontal 72 71 k).2
          = EMPTY_VALUE ∧
        getVal (play_word [0] 72 71 c10board .Horizontal (List.replicate 26 1)
            (List.replicate 26 0)).2.1
          (posOf .Horizontal 72 71 k).1 (posOf .Horizontal 72 71 k).2
          = ([0] : Word).getD k 0) ∧
      (∀ p : Nat × Nat, p ∉ [((72 : Nat), (71 : Nat))] →
        getVal (play_word [0] 72 71 c10board .Horizontal (List.replicate 26 1)
            (List.replicate 26 0)).2.1 p.1 p.2 = getVal c10board p.1 p.2) ∧
      (∀ l, l < (List.replicate 26 0 : Letters).length →
        ((play_word [0] 72 71 c10board .Horizontal (List.replicate 26 1)
            (List.replicate 26 0)).2.2).getD l 0
          = (List.replicate 26 0 : Letters).getD l 0
            + (ks.map (fun k => ([0] : Word).getD k 0)).count l) :=
  C10_play_word_frame [0] 72 71 c10board .Horizontal (List.replicate 26 1)
    (List.replicate 26 0) true [(72, 71)] ((List.replicate 26 1).set 0 0) .Remaining
    (play_word [0] 72 71 c10board .Horizontal (List.replicate 26 1)
      (List.replicate 26 0)).2.1
    (play_word [0] 72 71 c10board .Horizontal (List.replicate 26 1)
      (List.replicate 26 0)).2.2
    (by rfl)

/-- C5 amended: play_word returns the out-of-bounds Err exactly when the
index of the starting cell plus the word length reaches BOARD_SIZE, i.e.
when some letter would occupy a row/column index at or beyond
BOARD_SIZE - 1; in particular a horizontal placement whose last letter
falls exactly on column BOARD_SIZE - 1 IS an error, and one whose last
letter falls on column BOARD_SIZE - 2 is not. -/
theorem C5_out_of_bounds_iff :
    ∀ (word : Word) (row col : Nat) (b : Board) (dir : Direction) (letters hist : Letters),
    (play_word word row col b dir letters hist).1 = .error () ↔
      ((dir = .Horizontal ∧ BOARD_SIZE ≤ col + word.length) ∨
       (dir = .Vertical ∧ BOARD_SIZE ≤ row + word.length)) :=
  fun word row col b dir letters hist => play_word_error_iff word row col b dir letters hist

/-- Counterexample to C5 as stated: the one-letter word played at
(72, 143) occupies only the in-bounds cell (72, 143), no letter would
occupy an index at or beyond BOARD_SIZE, yet play_word reports the
out-of-bounds error. -/
theorem C5_counterexample :
    (play_word [0] 72 143 Board.new .Horizontal (List.replicate 26 1)
        (List.replicate 26 0)).1 = .error ()
    ∧ 143 < BOARD_SIZE ∧ 72 < BOARD_SIZE ∧ ([0] : Word).length = 1 :=
  ⟨by rfl, by decide, by decide, by rfl⟩

/-- C6: evaluation of play_word at the failing input of the code bug.  The
only contact of the two-letter word played horizontally at (72, 73) is the
occupied cell (72, 75) immediately after its last letter (72, 74); the
placement is in bounds, all other neighboring cells are empty, yet
play_word rejects it as invalid with no cells written.  The end-adjacency
disjunct of the location test never fires because its guard
(BOARD_SIZE - col_idx <= word.len()) contradicts the bounds check that
already returned Err when col_idx + word.len() >= BOARD_SIZE. -/
theorem C6_end_adjacent_rejected :
    (play_word [0, 1] 72 73 c6board .Horizontal (List.replicate 26 1)
        (List.replicate 26 0)).1 = .ok (false, [], List.replicate 26 1, .Remaining)
    ∧ getVal c6board 72 75 = 0
    ∧ getVal c6board 72 72 = EMPTY_VALUE
    ∧ getVal c6board 71 73 = EMPTY_VALUE ∧ getVal c6board 71 74 = EMPTY_VALUE
    ∧ getVal c6board 73 73 = EMPTY_VALUE ∧ getVal c6board 73 74 = EMPTY_VALUE
    ∧ 73 + ([0, 1] : Word).length < BOARD_SIZE :=
  ⟨by rfl, by rfl, by rfl, by rfl, by rfl, by rfl, by rfl, by decide⟩

/-- Counterexample to C2 as stated: with an all-zero hand and the
one-letter word A played at a validly located empty cell, play_word writes
the cell (the word's new cells are all written and hold the word's
letters), the remaining hand is all zero and one new cell was written,
yet the usage returned is Overused rather than Finished. -/
theorem C2_counterexample :
    (play_word [0] 72 71 c2board .Horizontal (List.replicate 26 0)
        (List.replicate 26 0)).1
      = .ok (false, [(72, 71)], List.replicate 26 0, .Overused)
    ∧ getVal (play_word [0] 72 71 c2board .Horizontal (List.replicate 26 0)
        (List.replicate 26 0)).2.1 72 71 = ([0] : Word).getD 0 0
    ∧ allZero (List.replicate 26 0) = true
    ∧ ([(72, 71)] : List (Nat × Nat)) ≠ [] :=
  ⟨by rfl, by rfl, by rfl, by decide⟩

/-- Counterexample to C1 as stated: row 72 of c1board holds the just-played
word AB at columns 10-11 and a separate maximal run XX (letter 23, twice)
at columns 20-21; the bounding box (10..21, 72..72) exactly covers the
occupied cells, the run XX is not in the valid-word set, yet
is_board_valid_horizontal returns true: the scanner never reaches maximal
runs of the played row that are not connected to the played word. -/
theorem C1_counterexample :
    is_board_valid_horizontal c1board 10 21 72 72 72 10 11 [[0, 1]] = true
    ∧ getVal c1board 72 20 = 23 ∧ getVal c1board 72 21 = 23
    ∧ getVal c1board 72 19 = EMPTY_VALUE ∧ getVal c1board 72 22 = EMPTY_VALUE
    ∧ ([23, 23] : Word) ∉ ([[0, 1]] : List Word)
    ∧ (∀ r, r < BOARD_SIZE → ∀ c, c < BOARD_SIZE →
        getVal c1board r c ≠ EMPTY_VALUE → r = 72 ∧ 10 ≤ c ∧ c ≤ 21)
    ∧ getVal c1board 72 10 = 0 ∧ getVal c1board 72 11 = 1 :=
  ⟨by rfl, by rfl, by rfl, by rfl, by rfl, by decide, by decide, by rfl, by rfl⟩

/-- C4: evaluation of the solver at a failing input for the bounding-box
claim.  Solving the hand with one A and two B tiles over the dictionary
AB, BA succeeds: the root word AB is placed at row 72, columns 71-72, and
the word AB is then accepted vertically in column 71, rows 72-73.  The
accepted vertical placement sets the new maximum row to
row_idx + word.len() = 74, one past the last letter, so the returned
bounding box (71..72, 72..74) is not tight: its maximum row 74 holds no
tile (the maximal occupied row is 73, and cell (73, 71) holds the letter
B).  This contradicts both the claim and the function's own documentation
of the returned values as maximum occupied indices. -/
theorem C4_bbox_not_tight :
    ((play_bananagrams 5 abHand abDict).map
      (fun r => (r.2.1, r.2.2.1, r.2.2.2.1, r.2.2.2.2,
        (List.range 144).all (fun c => getVal r.1 74 c == EMPTY_VALUE),
        getVal r.1 73 71, getVal r.1 72 71, getVal r.1 72 72)))
      = some (71, 72, 72, 74, true, 1, 0, 1) := by rfl

/-! ### The candidate filters and is_makeable -/

theorem is_makeable_iff_counts :
    ∀ (word : Word) (letters : Letters),
    is_makeable word letters = true ↔ ∀ l, List.count l word ≤ letters.getD l 0 := by
  intro word
  induction word with
  | nil =>
    intro letters
    simp [is_makeable, isMakeableGo]
  | cons x rest ih =>
    intro letters
    simp only [is_makeable, isMakeableGo] at *
    by_cases hz : letters.getD x 0 = 0
    · rw [if_pos hz]
      constructor
      · intro hfalse; cases hfalse
      · intro hall
        exfalso
        have h1 := hall x
        rw [List.count_cons_self, hz] at h1
        omega
    · rw [if_neg hz]
      rw [ih (decL letters x)]
      constructor
      · intro hall l
        by_cases hlx : l = x
        · subst hlx
          have h1 := hall l
          rw [getD_decL_self] at h1
          rw [List.count_cons_self]
          omega
        · have h1 := hall l
          rw [getD_decL_ne letters x l hlx] at h1
          rw [List.count_cons_of_ne hlx]
          exact h1
      · intro hall l
        by_cases hlx : l = x
        · subst hlx
          have h1 := hall l
          rw [List.count_cons_self] at h1
          rw [getD_decL_self]
          omega
        · have h1 := hall l
          rw [List.count_cons_of_ne hlx] at h1
          rw [getD_decL_ne letters x l hlx]
          exact h1

/-- C9: is_makeable answers exactly whether the word's letter multiset is
contained in the hand's counters, and its result is invariant under any
permutation of the word's letters.  The embedding passes both arguments by
value, mirroring the source's clone of the hand, so neither argument is
ever mutated. -/
theorem C9_is_makeable_multiset :
    (∀ (word : Word) (letters : Letters),
      is_makeable word letters = true ↔ ∀ l, List.count l word ≤ letters.getD l 0)
    ∧
    (∀ (word word2 : Word) (letters : Letters), word.Perm word2 →
      is_makeable word letters = is_makeable word2 letters) := by
  constructor
  · exact is_makeable_iff_counts
  · intro word word2 letters hperm
    rw [Bool.eq_iff_iff, is_makeable_iff_counts, is_makeable_iff_counts]
    constructor <;> intro h l
    · rw [← hperm.count_eq l]
      exact h l
    · rw [hperm.count_eq l]
      exact h l

/-- Witness for C9 on a concrete word, a permutation of it and a hand. -/
theorem C9_witness :
    is_makeable [0, 1, 0] (List.replicate 26 2)
      = is_makeable [0, 0, 1] (List.replicate 26 2)
    ∧ (is_makeable [0, 1, 0] (List.replicate 26 2) = true ↔
        ∀ l, List.count l [0, 1, 0] ≤ (List.replicate 26 2 : Letters).getD l 0) :=
  ⟨C9_is_makeable_multiset.2 [0, 1, 0] [0, 0, 1] (List.replicate 26 2) (by decide),
   C9_is_makeable_multiset.1 [0, 1, 0] (List.replicate 26 2)⟩

theorem checkFilterLaterGo_iff (word : List Nat) :
    ∀ (cur boardL : Letters) (n : Nat), n ≤ FILTER_LETTERS_ON_BOARD →
    (checkFilterLaterGo cur boardL word n = true ↔
      donationCoverable cur boardL (FILTER_LETTERS_ON_BOARD - n) word) := by
  induction word with
  | nil =>
    intro cur boardL n _
    simp [checkFilterLaterGo, donationCoverable]
  | cons l rest ih =>
    intro cur boardL n hn
    simp only [checkFilterLaterGo, donationCoverable]
    by_cases hz : cur.getD l 0 = 0
    · rw [if_pos (by simpa using hz), if_pos hz]
      by_cases hfull : n = FILTER_LETTERS_ON_BOARD
      · subst hfull
        rw [if_pos (by simp)]
        simp
      · rw [if_neg (by simpa using hfull)]
        by_cases hbz : boardL.getD l 0 = 0
        · rw [if_pos (by simpa using hbz)]
          constructor
          · intro hfalse; cases hfalse
          · rintro ⟨_, hpos, _⟩
            rw [hbz] at hpos
            exact absurd hpos (by omega)
        · rw [if_neg (by simpa using hbz)]
          rw [ih cur (decL boardL l) (n + 1) (by omega)]
          have harith : FILTER_LETTERS_ON_BOARD - (n + 1)
              = FILTER_LETTERS_ON_BOARD - n - 1 := by omega
          rw [harith]
          constructor
          · intro hcov
            exact ⟨by omega, by omega, hcov⟩
          · rintro ⟨_, _, hcov⟩
            exact hcov
    · rw [if_neg (by simpa using hz), if_neg hz]
      exact ih (decL cur l) boardL n hn

/-- C7: check_filter_after_play_later returns true for a word exactly when,
scanning the word's letters in order and taking each letter from the hand
when available, the letters not coverable by the hand can be drawn from
the on-board histogram using at most FILTER_LETTERS_ON_BOARD donated
letters in total and no more of any letter than the histogram currently
holds; it returns false for every word that would need more donations than
the budget or than are on the board. -/
theorem C7_filter_later_iff :
    ∀ (current_letters board_letters : Letters) (word : Word),
      check_filter_after_play_later current_letters board_letters word = true ↔
      donationCoverable current_letters board_letters FILTER_LETTERS_ON_BOARD word := by
  intro cur bl word
  have h := checkFilterLaterGo_iff word cur bl 0 (Nat.zero_le _)
  simpa [check_filter_after_play_later] using h

/-! ### The shard encoding -/

theorem flatMap_filter_map {α β γ : Type} (l : List α) (p : α → Bool) (f : α → β)
    (g : β → List γ) :
    (((l.filter p).map f).flatMap g) = l.flatMap (fun x => if p x then g (f x) else []) := by
  induction l with
  | nil => rfl
  | cons x xs ih =>
    by_cases hp : p x = true
    · simp [List.filter_cons, hp, ih]
    · simp [List.filter_cons, hp, ih]

theorem flatMap_congr_mem {α β : Type} {l : List α} {f g : α → List β}
    (h : ∀ x ∈ l, f x = g x) : l.flatMap f = l.flatMap g := by
  induction l with
  | nil => rfl
  | cons x xs ih =>
    simp only [List.flatMap_cons]
    rw [h x (List.mem_cons_self _ _), ih (fun y hy => h y (List.mem_cons_of_mem _ hy))]

theorem flatMap_assoc_own {α β γ : Type} (l : List α) (f : α → List β) (g : β → List γ) :
    (l.flatMap f).flatMap g = l.flatMap (fun x => (f x).flatMap g) := by
  induction l with
  | nil => rfl
  | cons x xs ih =>
    simp only [List.flatMap_cons, List.flatMap_append, ih]

theorem mem_cellsRowMajor (b : Board) (min_col max_col min_row max_row : Nat)
    (p : Nat × Nat) :
    p ∈ cellsRowMajor b min_col max_col min_row max_row ↔
      (min_row ≤ p.1 ∧ p.1 ≤ max_row ∧ min_col ≤ p.2 ∧ p.2 ≤ max_col ∧
        getVal b p.1 p.2 ≠ EMPTY_VALUE) := by
  obtain ⟨r, c⟩ := p
  unfold cellsRowMajor rustRange
  rw [List.mem_flatMap]
  constructor
  · rintro ⟨row, hrow, hmem⟩
    rw [List.mem_map] at hmem
    obtain ⟨col, hcol, heq⟩ := hmem
    rw [List.mem_filter] at hcol
    obtain ⟨hcr, hocc⟩ := hcol
    rw [List.mem_range'_1] at hrow hcr
    injection heq with h1 h2
    subst h1 h2
    refine ⟨by omega, by omega, by omega, by omega, ?_⟩
    simpa using hocc
  · rintro ⟨h1, h2, h3, h4, h5⟩
    refine ⟨r, ?_, ?_⟩
    · rw [List.mem_range'_1]
      omega
    · rw [List.mem_map]
      refine ⟨c, ?_, rfl⟩
      rw [List.mem_filter]
      exact ⟨by rw [List.mem_range'_1]; omega, by simpa using h5⟩

theorem cellsRowMajor_nodup (b : Board) (min_col max_col min_row max_row : Nat) :
    (cellsRowMajor b min_col max_col min_row max_row).Nodup := by
  unfold cellsRowMajor
  rw [List.nodup_flatMap]
  constructor
  · intro r _
    refine List.Nodup.map ?_ (List.Nodup.filter _ (List.nodup_range' _ _))
    intro c1 c2 hc
    simpa using hc
  · refine List.Pairwise.imp ?_ (List.nodup_range' _ _)
    intro r1 r2 hne q hq1 hq2
    rw [List.mem_map] at hq1 hq2
    obtain ⟨c1, _, hq1⟩ := hq1
    obtain ⟨c2, _, hq2⟩ := hq2
    rw [← hq2] at hq1
    injection hq1 with h1 _
    exact hne h1

theorem board_to_bytes_structure (b : Board) (min_col max_col min_row max_row : Nat)
    (hr : max_row < BOARD_SIZE) (hc : max_col < BOARD_SIZE)
    (hlet : ∀ r, r ≤ max_row → ∀ c, c ≤ max_col → min_row ≤ r → min_col ≤ c →
      getVal b r c = EMPTY_VALUE ∨ getVal b r c < 26) :
    board_to_bytes b min_col max_col min_row max_row
      = (cellsRowMajor b min_col max_col min_row max_row).flatMap
          (fun p => [p.1, p.2, getVal b p.1 p.2]) ++ [255] := by
  unfold board_to_bytes cellsRowMajor
  congr 1
  rw [flatMap_assoc_own]
  refine flatMap_congr_mem (fun row hrow => ?_)
  rw [flatMap_filter_map]
  refine flatMap_congr_mem (fun col hcol => ?_)
  unfold rustRange at hrow hcol
  rw [List.mem_range'_1] at hrow hcol
  have hcond : (!(getVal b row col == EMPTY_VALUE)) = true ↔
      getVal b row col ≠ EMPTY_VALUE := by simp
  by_cases hocc : getVal b row col = EMPTY_VALUE
  · rw [if_neg (fun hcon => hcon hocc)]
    rw [if_neg (fun hcon => (hcond.mp hcon) hocc)]
  · rw [if_pos hocc]
    rw [if_pos (hcond.mpr hocc)]
    have hv : getVal b row col < 26 := by
      rcases hlet row (by omega) col (by omega) (by omega) (by omega) with h | h
      · exact absurd h hocc
      · exact h
    have e1 : row % 256 = row := Nat.mod_eq_of_lt (by
      have : BOARD_SIZE = 144 := rfl
      omega)
    have e2 : col % 256 = col := Nat.mod_eq_of_lt (by
      have : BOARD_SIZE = 144 := rfl
      omega)
    have e3 : getVal b row col % 256 = getVal b row col := Nat.mod_eq_of_lt (by omega)
    rw [e1, e2, e3]

theorem replay_bytes_sentinel (bd : Board) (rest : List Nat) :
    replay_bytes bd (255 :: rest) = (bd, rest) := by
  cases rest with
  | nil => rfl
  | cons a t =>
    cases t with
    | nil => rfl
    | cons a2 t2 => rfl

theorem replay_flat (b : Board) (cells : List (Nat × Nat)) :
    ∀ (bd : Board) (rest : List Nat),
    (∀ p ∈ cells, p.1 ≠ 255) →
    replay_bytes bd ((cells.flatMap (fun p => [p.1, p.2, getVal b p.1 p.2])) ++ 255 :: rest)
      = (cells.foldl (fun acc p => setVal acc p.1 p.2 (getVal b p.1 p.2)) bd, rest) := by
  induction cells with
  | nil =>
    intro bd rest _
    simp only [List.flatMap_nil, List.nil_append, List.foldl_nil]
    exact replay_bytes_sentinel bd rest
  | cons p ps ih =>
    intro bd rest h255
    simp only [List.flatMap_cons, List.cons_append, List.append_assoc, List.foldl_cons]
    rw [replay_bytes]
    rw [if_neg (h255 p (List.mem_cons_self _ _))]
    exact ih (setVal bd p.1 p.2 (getVal b p.1 p.2)) rest
      (fun q hq => h255 q (List.mem_cons_of_mem _ hq))

theorem getVal_foldl_set (b : Board) (cells : List (Nat × Nat)) :
    ∀ (bd : Board) (q : Nat × Nat),
    List.Pairwise (· ≠ ·) cells →
    getVal (cells.foldl (fun acc p => setVal acc p.1 p.2 (getVal b p.1 p.2)) bd) q.1 q.2
      = if q ∈ cells then getVal b q.1 q.2 else getVal bd q.1 q.2 := by
  induction cells with
  | nil =>
    intro bd q _
    simp
  | cons p ps ih =>
    intro bd q hpw
    obtain ⟨hne, hpw2⟩ := List.pairwise_cons.mp hpw
    simp only [List.foldl_cons]
    rw [ih _ q hpw2]
    by_cases hq : q ∈ ps
    · simp [hq]
    · by_cases hqp : q = p
      · subst hqp
        simp only [hq, if_false, List.mem_cons, true_or, if_true]
        exact getVal_setVal_self bd q.1 q.2 _
      · have hq2 : q ∉ p :: ps := by
          intro hmem
          rcases List.mem_cons.mp hmem with heq | hmem2
          · exact hqp heq
          · exact hq hmem2
        simp only [hq, if_false, hq2]
        exact getVal_setVal_ne2 bd p q _ hqp

/-- C8: board_to_bytes emits exactly one (row, col, letter) triple per
non-empty cell of the bounding box, in row-major order, followed by the
terminating byte 255; no byte of any triple equals 255 (rows and columns
are below BOARD_SIZE = 144 and letters below 26); consequently replaying
the triples onto a fresh empty board reproduces the original board
exactly, and the sentinel delimits this record from any following bytes,
which are returned untouched. -/
theorem C8_board_to_bytes_roundtrip :
    ∀ (b : Board) (min_col max_col min_row max_row : Nat),
    max_row < BOARD_SIZE → max_col < BOARD_SIZE →
    (∀ r, r ≤ max_row → ∀ c, c ≤ max_col → min_row ≤ r → min_col ≤ c →
      getVal b r c = EMPTY_VALUE ∨ getVal b r c < 26) →
    (∀ r c, ¬(min_row ≤ r ∧ r ≤ max_row ∧ min_col ≤ c ∧ c ≤ max_col) →
      getVal b r c = EMPTY_VALUE) →
    (board_to_bytes b min_col max_col min_row max_row
      = (cellsRowMajor b min_col max_col min_row max_row).flatMap
          (fun p => [p.1, p.2, getVal b p.1 p.2]) ++ [255])
    ∧ (∀ x ∈ (cellsRowMajor b min_col max_col min_row max_row).flatMap
          (fun p => [p.1, p.2, getVal b p.1 p.2]), x ≠ 255)
    ∧ (∀ rest : List Nat,
        (∀ r c, getVal (replay_bytes Board.new
            (board_to_bytes b min_col max_col min_row max_row ++ rest)).1 r c
          = getVal b r c)
        ∧ (replay_bytes Board.new
            (board_to_bytes b min_col max_col min_row max_row ++ rest)).2 = rest) := by
  intro b min_col max_col min_row max_row hr hc hlet hcov
  have hstruct := board_to_bytes_structure b min_col max_col min_row max_row hr hc hlet
  have hmem255 : ∀ x ∈ (cellsRowMajor b min_col max_col min_row max_row).flatMap
      (fun p => [p.1, p.2, getVal b p.1 p.2]), x ≠ 255 := by
    intro x hx
    rw [List.mem_flatMap] at hx
    obtain ⟨p, hp, hxp⟩ := hx
    rw [mem_cellsRowMajor] at hp
    obtain ⟨h1, h2, h3, h4, h5⟩ := hp
    have hv : getVal b p.1 p.2 < 26 := by
      rcases hlet p.1 h2 p.2 h4 h1 h3 with h | h
      · exact absurd h h5
      · exact h
    have hBS : BOARD_SIZE = 144 := rfl
    simp only [List.mem_cons, List.not_mem_nil, or_false] at hxp
    rcases hxp with rfl | rfl | rfl
    · omega
    · omega
    · omega
  refine ⟨hstruct, hmem255, ?_⟩
  intro rest
  have h255fst : ∀ p ∈ cellsRowMajor b min_col max_col min_row max_row, p.1 ≠ 255 := by
    intro p hp
    refine hmem255 p.1 ?_
    rw [List.mem_flatMap]
    exact ⟨p, hp, by simp⟩
  have hrw : board_to_bytes b min_col max_col min_row max_row ++ rest
      = ((cellsRowMajor b min_col max_col min_row max_row).flatMap
          (fun p => [p.1, p.2, getVal b p.1 p.2])) ++ 255 :: rest := by
    rw [hstruct, List.append_assoc]
    rfl
  rw [hrw, replay_flat b _ Board.new rest h255fst]
  constructor
  · intro r c
    have hpw : List.Pairwise (· ≠ ·) (cellsRowMajor b min_col max_col min_row max_row) :=
      cellsRowMajor_nodup b min_col max_col min_row max_row
    have := getVal_foldl_set b (cellsRowMajor b min_col max_col min_row max_row)
      Board.new (r, c) hpw
    rw [this]
    by_cases hmem : ((r, c) : Nat × Nat) ∈ cellsRowMajor b min_col max_col min_row max_row
    · rw [if_pos hmem]
    · rw [if_neg hmem]
      rw [mem_cellsRowMajor] at hmem
      by_cases hbox : min_row ≤ r ∧ r ≤ max_row ∧ min_col ≤ c ∧ c ≤ max_col
      · by_cases hocc : getVal b r c = EMPTY_VALUE
        · exact hocc.symm
        · exact absurd ⟨hbox.1, hbox.2.1, hbox.2.2.1, hbox.2.2.2, hocc⟩ hmem
      · exact (hcov r c hbox).symm
  · rfl

/-- Witness for C8: the encoding of c1board over its bounding box, with a
nonempty tail standing for a following record. -/
theorem C8_witness :
    (board_to_bytes c1board 10 21 72 72
      = (cellsRowMajor c1board 10 21 72 72).flatMap
          (fun p => [p.1, p.2, getVal c1board p.1 p.2]) ++ [255])
    ∧ (∀ x ∈ (cellsRowMajor c1board 10 21 72 72).flatMap
          (fun p => [p.1, p.2, getVal c1board p.1 p.2]), x ≠ 255)
    ∧ (∀ rest : List Nat,
        (∀ r c, getVal (replay_bytes Board.new
            (board_to_bytes c1board 10 21 72 72 ++ rest)).1 r c
          = getVal c1board r c)
        ∧ (replay_bytes Board.new
            (board_to_bytes c1board 10 21 72 72 ++ rest)).2 = rest) :=
  C8_board_to_bytes_roundtrip c1board 10 21 72 72 (by decide) (by decide)
    (by decide)
    (by
      intro r c h
      simp only [c1board, getVal, setVal, Board.new, EMPTY_VALUE]
      split_ifs with h1 h2 h3 h4
      · obtain ⟨rfl, rfl⟩ := h1
        exact absurd (by omega) h
      · obtain ⟨rfl, rfl⟩ := h2
        exact absurd (by omega) h
      · obtain ⟨rfl, rfl⟩ := h3
        exact absurd (by omega) h
      · obtain ⟨rfl, rfl⟩ := h4
        exact absurd (by omega) h
      · rfl)

/-! ### Tile counting -/

theorem countBox_subbox (b : Board) (mc Mc mr Mr mc2 Mc2 mr2 Mr2 : Nat)
    (hout : outsideEmpty b mc Mc mr Mr)
    (h1 : mc2 ≤ mc) (h2 : Mc ≤ Mc2) (h3 : mr2 ≤ mr) (h4 : Mr ≤ Mr2) :
    countBox b mc2 Mc2 mr2 Mr2 = countBox b mc Mc mr Mr := by
  unfold countBox
  have hperm : (cellsRowMajor b mc2 Mc2 mr2 Mr2).Perm (cellsRowMajor b mc Mc mr Mr) := by
    rw [List.perm_ext_iff_of_nodup (cellsRowMajor_nodup _ _ _ _ _)
      (cellsRowMajor_nodup _ _ _ _ _)]
    intro q
    rw [mem_cellsRowMajor, mem_cellsRowMajor]
    constructor
    · rintro ⟨ha, hb, hc, hd, he⟩
      by_cases hinb : mr ≤ q.1 ∧ q.1 ≤ Mr ∧ mc ≤ q.2 ∧ q.2 ≤ Mc
      · exact ⟨hinb.1, hinb.2.1, hinb.2.2.1, hinb.2.2.2, he⟩
      · exact absurd (hout q.1 q.2 hinb) he
    · rintro ⟨ha, hb, hc, hd, he⟩
      exact ⟨by omega, by omega, by omega, by omega, he⟩
  exact hperm.length_eq

theorem countBox_Board_new (mc Mc mr Mr : Nat) : countBox Board.new mc Mc mr Mr = 0 := by
  unfold countBox
  have hnil : cellsRowMajor Board.new mc Mc mr Mr = [] := by
    rw [List.eq_nil_iff_forall_not_mem]
    intro q hq
    rw [mem_cellsRowMajor] at hq
    exact hq.2.2.2.2 rfl
  rw [hnil]
  rfl

theorem countBox_writes (b b2 : Board) (cells : List (Nat × Nat))
    (mc Mc mr Mr : Nat)
    (hnd : List.Pairwise (· ≠ ·) cells)
    (hin : ∀ p ∈ cells, mr ≤ p.1 ∧ p.1 ≤ Mr ∧ mc ≤ p.2 ∧ p.2 ≤ Mc)
    (hemp : ∀ p ∈ cells, getVal b p.1 p.2 = EMPTY_VALUE)
    (hval : ∀ p ∈ cells, getVal b2 p.1 p.2 ≠ EMPTY_VALUE)
    (hfr : ∀ p : Nat × Nat, p ∉ cells → getVal b2 p.1 p.2 = getVal b p.1 p.2) :
    countBox b2 mc Mc mr Mr = countBox b mc Mc mr Mr + cells.length := by
  unfold countBox
  have hdisj : cells.Disjoint (cellsRowMajor b mc Mc mr Mr) := by
    intro q hq1 hq2
    rw [mem_cellsRowMajor] at hq2
    exact hq2.2.2.2.2 (hemp q hq1)
  have happnd : (cells ++ cellsRowMajor b mc Mc mr Mr).Nodup :=
    List.Nodup.append hnd (cellsRowMajor_nodup _ _ _ _ _) hdisj
  have hperm : (cellsRowMajor b2 mc Mc mr Mr).Perm
      (cells ++ cellsRowMajor b mc Mc mr Mr) := by
    rw [List.perm_ext_iff_of_nodup (cellsRowMajor_nodup _ _ _ _ _) happnd]
    intro q
    rw [List.mem_append, mem_cellsRowMajor, mem_cellsRowMajor]
    constructor
    · rintro ⟨h1, h2, h3, h4, h5⟩
      by_cases hq : q ∈ cells
      · exact Or.inl hq
      · exact Or.inr ⟨h1, h2, h3, h4, by rw [← hfr q hq]; exact h5⟩
    · rintro (hq | ⟨h1, h2, h3, h4, h5⟩)
      · obtain ⟨h1, h2, h3, h4⟩ := hin q hq
        exact ⟨h1, h2, h3, h4, hval q hq⟩
      · by_cases hq : q ∈ cells
        · exact absurd (hemp q hq) h5
        · exact ⟨h1, h2, h3, h4, by rw [hfr q hq]; exact h5⟩
  rw [hperm.length_eq, List.length_append]
  omega

/-! ### Root placement and is_makeable consumption -/

theorem is_makeable_letters_lt (word : List Nat) :
    ∀ (h : Letters), is_makeable word h = true → ∀ l ∈ word, l < h.length := by
  induction word with
  | nil =>
    intro h _ l hl
    exact absurd hl (List.not_mem_nil l)
  | cons x rest ih =>
    intro h hmk l hl
    simp only [is_makeable, isMakeableGo] at hmk
    by_cases hz : h.getD x 0 = 0
    · rw [if_pos hz] at hmk
      cases hmk
    · rw [if_neg hz] at hmk
      rcases List.mem_cons.mp hl with rfl | hl2
      · exact lt_length_of_getD_pos h l hz
      · have := ih (decL h x) hmk l hl2
        rwa [length_decL] at this

theorem is_makeable_dec_sum (word : List Nat) :
    ∀ (h : Letters), is_makeable word h = true →
    sumL (word.foldl decL h) + word.length = sumL h := by
  induction word with
  | nil =>
    intro h _
    rfl
  | cons x rest ih =>
    intro h hmk
    simp only [is_makeable, isMakeableGo] at hmk
    by_cases hz : h.getD x 0 = 0
    · rw [if_pos hz] at hmk
      cases hmk
    · rw [if_neg hz] at hmk
      have h1 := ih (decL h x) hmk
      have h2 := sumL_decL h x hz
      simp only [List.foldl_cons, List.length_cons]
      omega

theorem length_foldl_decL (ls : List Nat) (h : Letters) :
    (ls.foldl decL h).length = h.length := by
  induction ls generalizing h with
  | nil => rfl
  | cons x xs ih =>
    simp only [List.foldl_cons]
    rw [ih (decL h x), length_decL]

theorem rootPlace_hist (row colst : Nat) (word : List Nat) :
    ∀ (i : Nat) (b : Board) (hist use : Letters),
    (rootPlace row colst word i b hist use).2.1 = word.foldl incL hist := by
  induction word with
  | nil =>
    intro i b hist use
    rfl
  | cons x rest ih =>
    intro i b hist use
    simp only [rootPlace, List.foldl_cons]
    exact ih (i + 1) _ _ _

theorem rootPlace_use (row colst : Nat) (word : List Nat) :
    ∀ (i : Nat) (b : Board) (hist use : Letters),
    (rootPlace row colst word i b hist use).2.2 = word.foldl decL use := by
  induction word with
  | nil =>
    intro i b hist use
    rfl
  | cons x rest ih =>
    intro i b hist use
    simp only [rootPlace, List.foldl_cons]
    exact ih (i + 1) _ _ _

theorem rootPlace_frame (row colst : Nat) (word : List Nat) :
    ∀ (i : Nat) (b : Board) (hist use : Letters) (r c : Nat),
    (∀ j, j < word.length → (r, c) ≠ (row, colst + (i + j))) →
    getVal (rootPlace row colst word i b hist use).1 r c = getVal b r c := by
  induction word with
  | nil =>
    intro i b hist use r c _
    rfl
  | cons x rest ih =>
    intro i b hist use r c hne
    simp only [rootPlace]
    rw [ih (i + 1) _ _ _ r c (fun j hj => by
      have := hne (j + 1) (by simpa using Nat.succ_lt_succ hj)
      intro hcon
      apply this
      rw [hcon]
      congr 1
      omega)]
    refine getVal_setVal_ne b row (colst + i) x r c ?_
    have := hne 0 (by simp)
    intro hcon
    apply this
    rw [hcon]
    simp

theorem rootPlace_val (row colst : Nat) (word : List Nat) :
    ∀ (i : Nat) (b : Board) (hist use : Letters) (j : Nat), j < word.length →
    getVal (rootPlace row colst word i b hist use).1 row (colst + (i + j))
      = word.getD j 0 := by
  induction word with
  | nil =>
    intro i b hist use j hj
    simp at hj
  | cons x rest ih =>
    intro i b hist use j hj
    simp only [rootPlace]
    cases j with
    | zero =>
      rw [rootPlace_frame row colst rest (i + 1) _ _ _ row (colst + (i + 0))
        (fun j2 hj2 => by
          intro hcon
          injection hcon with h1 h2
          omega)]
      simpa using getVal_setVal_self b row (colst + i) x
    | succ j2 =>
      have h1 := ih (i + 1) (setVal b row (colst + i) x) (incL hist x) (decL use x)
        j2 (by simpa using hj)
      have h2 : i + 1 + j2 = i + (j2 + 1) := by omega
      rw [h2] at h1
      simpa using h1

/-! ### Invariant preservation through the solver -/

theorem play_success_inv_core
    (word : Word) (r c : Nat) (b : Board) (dir : Direction) (letters hist : Letters)
    (played2 : List (Nat × Nat)) (rem2 : Letters) (usage : LetterUsage)
    (b2 : Board) (hist2 : Letters) (T minc maxc minr maxr mc2 Mc2 mr2 Mr2 : Nat)
    (inv : SolveInv b hist minc maxc minr maxr letters T)
    (h : play_word word r c b dir letters hist = (.ok (true, played2, rem2, usage), b2, hist2))
    (hsub : mc2 ≤ minc ∧ maxc ≤ Mc2 ∧ mr2 ≤ minr ∧ maxr ≤ Mr2)
    (hinbox : ∀ k, k < word.length →
      mr2 ≤ (posOf dir r c k).1 ∧ (posOf dir r c k).1 ≤ Mr2 ∧
      mc2 ≤ (posOf dir r c k).2 ∧ (posOf dir r c k).2 ≤ Mc2) :
    SolveInv b2 hist2 mc2 Mc2 mr2 Mr2 rem2 T
    ∧ (usage = .Finished → countBox b2 mc2 Mc2 mr2 Mr2 = T) := by
  obtain ⟨ks, F⟩ := play_word_spec word r c b dir letters hist _ _ _ _ _ _ h
  have hnover : usage ≠ .Overused := F.succ_usage rfl
  have hks_lt : ∀ k ∈ ks, k < word.length := by
    intro k hk
    have h1 := (F.ks_mem k hk).2
    omega
  have hlt : ∀ k ∈ ks, word.getD k 0 < 26 := by
    intro k hk
    have h1 := F.letter_lt hnover k hk
    rw [inv.hand_len] at h1
    simpa using h1
  have hin : ∀ p ∈ ks.map (fun k => posOf dir r c k),
      mr2 ≤ p.1 ∧ p.1 ≤ Mr2 ∧ mc2 ≤ p.2 ∧ p.2 ≤ Mc2 := by
    intro p hp
    obtain ⟨k, hk, rfl⟩ := List.mem_map.mp hp
    exact hinbox k (hks_lt k hk)
  have hnd : List.Pairwise (· ≠ ·) (ks.map (fun k => posOf dir r c k)) := by
    refine List.Pairwise.map _ ?_ F.ks_mono
    intro k k2 hlt2 heq
    have := posOf_inj dir r c heq
    omega
  have hemp : ∀ p ∈ ks.map (fun k => posOf dir r c k),
      getVal b p.1 p.2 = EMPTY_VALUE := by
    intro p hp
    obtain ⟨k, hk, rfl⟩ := List.mem_map.mp hp
    exact F.was_empty k hk
  have hE : EMPTY_VALUE = 30 := rfl
  have hval : ∀ p ∈ ks.map (fun k => posOf dir r c k),
      getVal b2 p.1 p.2 ≠ EMPTY_VALUE := by
    intro p hp
    obtain ⟨k, hk, rfl⟩ := List.mem_map.mp hp
    have h1 := F.new_val k hk
    have h2 := hlt k hk
    rw [h1]
    simp only [Nat.sub_zero]
    omega
  have hfr : ∀ p : Nat × Nat, p ∉ ks.map (fun k => posOf dir r c k) →
      getVal b2 p.1 p.2 = getVal b p.1 p.2 := fun p hp => F.frame p hp
  have hout2 : outsideEmpty b2 mc2 Mc2 mr2 Mr2 := by
    intro rr cc hno
    have houtbig : ¬(minr ≤ rr ∧ rr ≤ maxr ∧ minc ≤ cc ∧ cc ≤ maxc) := by
      intro hcon
      exact hno ⟨by omega, by omega, by omega, by omega⟩
    have hb_emp := inv.outside rr cc houtbig
    have hnotc : ((rr, cc) : Nat × Nat) ∉ ks.map (fun k => posOf dir r c k) := by
      intro hmem
      have h1 := hin (rr, cc) hmem
      exact hno ⟨h1.1, h1.2.1, h1.2.2.1, h1.2.2.2⟩
    exact (F.frame (rr, cc) hnotc).trans hb_emp
  have hcount := countBox_writes b b2 (ks.map (fun k => posOf dir r c k))
    mc2 Mc2 mr2 Mr2 hnd hin hemp hval hfr
  have hsum2 : sumL hist2 = sumL hist + ks.length := by
    rw [F.hist_eq, sumL_foldl_incL]
    · rw [List.length_map]
    · intro x hx
      obtain ⟨k, hk, rfl⟩ := List.mem_map.mp hx
      rw [inv.hist_len]
      simpa using hlt k hk
  have hremsum := F.rem_sum hnover
  have hcountbig : countBox b mc2 Mc2 mr2 Mr2 = sumL hist :=
    (countBox_subbox b minc maxc minr maxr mc2 Mc2 mr2 Mr2 inv.outside
      hsub.1 hsub.2.1 hsub.2.2.1 hsub.2.2.2).trans inv.count_eq
  have hcwf := inv.cwf
  have hrwf := inv.rwf
  have hcons := inv.conserve
  refine ⟨⟨hout2, ?_, ?_, ?_, ?_, ?_, ?_⟩, ?_⟩
  · rw [hcount, hcountbig, List.length_map]
    omega
  · omega
  · rw [F.hist_eq, length_foldl_incL, inv.hist_len]
  · rw [F.rem_len, inv.hand_len]
  · omega
  · omega
  · intro hfin
    have hz := (F.fin_iff.mp hfin).2
    have hz2 := sumL_eq_zero_of_allZero rem2 hz
    rw [hcount, hcountbig, List.length_map]
    omega

theorem play_success_inv
    (word : Word) (r c : Nat) (b : Board) (dir : Direction) (letters hist : Letters)
    (played2 : List (Nat × Nat)) (rem2 : Letters) (usage : LetterUsage)
    (b2 : Board) (hist2 : Letters) (T minc maxc minr maxr : Nat)
    (inv : SolveInv b hist minc maxc minr maxr letters T)
    (h : play_word word r c b dir letters hist = (.ok (true, played2, rem2, usage), b2, hist2)) :
    SolveInv b2 hist2 (min minc c)
      (match dir with
        | .Horizontal => max maxc (c + word.length)
        | .Vertical => max maxc c)
      (min minr r)
      (match dir with
        | .Horizontal => max maxr r
        | .Vertical => max maxr (r + word.length)) rem2 T
    ∧ (usage = .Finished →
        countBox b2 (min minc c)
          (match dir with
            | .Horizontal => max maxc (c + word.length)
            | .Vertical => max maxc c)
          (min minr r)
          (match dir with
            | .Horizontal => max maxr r
            | .Vertical => max maxr (r + word.length)) = T) := by
  cases dir with
  | Horizontal =>
    exact play_success_inv_core word r c b .Horizontal letters hist played2 rem2 usage
      b2 hist2 T minc maxc minr maxr (min minc c) (max maxc (c + word.length))
      (min minr r) (max maxr r) inv h
      ⟨by omega, by omega, by omega, by omega⟩
      (fun k hk => by
        simp only [posOf]
        exact ⟨by omega, by omega, by omega, by omega⟩)
  | Vertical =>
    exact play_success_inv_core word r c b .Vertical letters hist played2 rem2 usage
      b2 hist2 T minc maxc minr maxr (min minc c) (max maxc c)
      (min minr r) (max maxr (r + word.length)) inv h
      ⟨by omega, by omega, by omega, by omega⟩
      (fun k hk => by
        simp only [posOf]
        exact ⟨by omega, by omega, by omega, by omega⟩)

theorem tryPositions_conserve (recurse : Recurse) (hrec : RecurseSpec recurse)
    (dir : Direction) (minc maxc minr maxr : Nat) (vec set : List Word)
    (letters : Letters) (depth : Nat) (word : Word) (T : Nat) :
    ∀ (ps : List (Nat × Nat)) (b : Board) (hist : Letters) (wc : Nat),
    SolveInv b hist minc maxc minr maxr letters T →
    StepSpec T b hist
      (tryPositions recurse dir minc maxc minr maxr vec set letters depth word ps
        (b, hist, wc)) := by
  intro ps
  induction ps with
  | nil =>
    intro b hist wc inv
    exact ⟨rfl, rfl⟩
  | cons p ps ih =>
    intro b hist wc inv
    obtain ⟨r, c⟩ := p
    cases dir with
    | Horizontal =>
        rcases hpw : play_word word r c b .Horizontal letters hist with ⟨pwout, b1, hist1⟩
        cases pwout with
        | error e =>
          simp only [tryPositions, hpw]
          intro s mc2 Mc2 mr2 Mr2 hout
          exact absurd hout (by simp)
        | ok res =>
          obtain ⟨succ, played, rem, usage⟩ := res
          cases succ with
          | false =>
            simp only [tryPositions, hpw, Bool.false_eq_true, if_false]
            have hu : undo_play b1 played hist1 = (b, hist) :=
              play_then_undo word r c b .Horizontal letters hist false played rem usage
                b1 hist1 hpw
            rw [hu]
            exact ih b hist wc inv
          | true =>
            cases usage with
            | Overused =>
              simp only [tryPositions, hpw, if_true]
              split
              case isTrue hok =>
                intro s mc2 Mc2 mr2 Mr2 hout
                exact absurd hout (by simp)
              case isFalse hok =>
                have hu : undo_play b1 played hist1 = (b, hist) :=
                  play_then_undo word r c b .Horizontal letters hist true played rem
                    .Overused b1 hist1 hpw
                rw [hu]
                exact ih b hist wc inv
            | Finished =>
              simp only [tryPositions, hpw, if_true]
              split
              case isTrue hok =>
                intro s mc2 Mc2 mr2 Mr2 hout
                simp only [Except.ok.injEq, Prod.mk.injEq] at hout
                obtain ⟨hs, h1, h2, h3, h4⟩ := hout
                subst hs h1 h2 h3 h4
                have P := play_success_inv word r c b .Horizontal letters hist played rem
                  .Finished b1 hist1 T minc maxc minr maxr inv hpw
                exact ⟨rfl, P.1.outside, P.2 rfl, P.1.cwf, P.1.rwf⟩
              case isFalse hok =>
                have hu : undo_play b1 played hist1 = (b, hist) :=
                  play_then_undo word r c b .Horizontal letters hist true played rem
                    .Finished b1 hist1 hpw
                rw [hu]
                exact ih b hist wc inv
            | Remaining =>
              simp only [tryPositions, hpw, if_true]
              split
              case isTrue hok =>
                have P := play_success_inv word r c b .Horizontal letters hist played rem
                  .Remaining b1 hist1 T minc maxc minr maxr inv hpw
                have P1 : SolveInv b1 hist1 (min minc c) (max maxc (c + word.length))
                    (min minr r) (max maxr r) rem T := P.1
                split
                case h_1 r2 b2 hist2 wc2 heq =>
                  obtain ⟨s5, a5, b5, c5, d5⟩ := r2
                  have spec := hrec b1 (min minc c) (max maxc (c + word.length))
                    (min minr r) (max maxr r)
                    (vec.filter (fun w => check_filter_after_play_later letters hist1 w))
                    set rem (depth + 1) wc hist1 T (.ok (s5, a5, b5, c5, d5)) b2 hist2 wc2
                    P1 heq
                  cases s5 with
                  | true =>
                    intro s mc2 Mc2 mr2 Mr2 hout
                    simp only [Except.ok.injEq, Prod.mk.injEq] at hout
                    obtain ⟨hs, h1, h2, h3, h4⟩ := hout
                    subst hs h1 h2 h3 h4
                    have posts := spec.1 true a5 b5 c5 d5 rfl rfl
                    exact ⟨rfl, posts.1, posts.2.1, posts.2.2.1, posts.2.2.2⟩
                  | false =>
                    simp only [Bool.false_eq_true, if_false]
                    obtain ⟨_, _, _, _, hb2, hh2⟩ := spec.2 a5 b5 c5 d5 rfl
                    rw [hb2, hh2]
                    have hu : undo_play b1 played hist1 = (b, hist) :=
                      play_then_undo word r c b .Horizontal letters hist true played rem
                        .Remaining b1 hist1 hpw
                    rw [hu]
                    exact ih b hist wc2 inv
                case h_2 e b2 hist2 wc2 heq =>
                  intro s mc2 Mc2 mr2 Mr2 hout
                  exact absurd hout (by simp)
              case isFalse hok =>
                have hu : undo_play b1 played hist1 = (b, hist) :=
                  play_then_undo word r c b .Horizontal letters hist true played rem
                    .Remaining b1 hist1 hpw
                rw [hu]
                exact ih b hist wc inv
    | Vertical =>
        rcases hpw : play_word word r c b .Vertical letters hist with ⟨pwout, b1, hist1⟩
        cases pwout with
        | error e =>
          simp only [tryPositions, hpw]
          intro s mc2 Mc2 mr2 Mr2 hout
          exact absurd hout (by simp)
        | ok res =>
          obtain ⟨succ, played, rem, usage⟩ := res
          cases succ with
          | false =>
            simp only [tryPositions, hpw, Bool.false_eq_true, if_false]
            have hu : undo_play b1 played hist1 = (b, hist) :=
              play_then_undo word r c b .Vertical letters hist false played rem usage
                b1 hist1 hpw
            rw [hu]
            exact ih b hist wc inv
          | true =>
            cases usage with
            | Overused =>
              simp only [tryPositions, hpw, if_true]
              split
              case isTrue hok =>
                intro s mc2 Mc2 mr2 Mr2 hout
                exact absurd hout (by simp)
              case isFalse hok =>
                have hu : undo_play b1 played hist1 = (b, hist) :=
                  play_then_undo word r c b .Vertical letters hist true played rem
                    .Overused b1 hist1 hpw
                rw [hu]
                exact ih b hist wc inv
            | Finished =>
              simp only [tryPositions, hpw, if_true]
              split
              case isTrue hok =>
                intro s mc2 Mc2 mr2 Mr2 hout
                simp only [Except.ok.injEq, Prod.mk.injEq] at hout
                obtain ⟨hs, h1, h2, h3, h4⟩ := hout
                subst hs h1 h2 h3 h4
                have P := play_success_inv word r c b .Vertical letters hist played rem
                  .Finished b1 hist1 T minc maxc minr maxr inv hpw
                exact ⟨rfl, P.1.outside, P.2 rfl, P.1.cwf, P.1.rwf⟩
              case isFalse hok =>
                have hu : undo_play b1 played hist1 = (b, hist) :=
                  play_then_undo word r c b .Vertical letters hist true played rem
                    .Finished b1 hist1 hpw
                rw [hu]
                exact ih b hist wc inv
            | Remaining =>
              simp only [tryPositions, hpw, if_true]
              split
              case isTrue hok =>
                have P := play_success_inv word r c b .Vertical letters hist played rem
                  .Remaining b1 hist1 T minc maxc minr maxr inv hpw
                have P1 : SolveInv b1 hist1 (min minc c) (max maxc c)
                    (min minr r) (max maxr (r + word.length)) rem T := P.1
                split
                case h_1 r2 b2 hist2 wc2 heq =>
                  obtain ⟨s5, a5, b5, c5, d5⟩ := r2
                  have spec := hrec b1 (min minc c) (max maxc c)
                    (min minr r) (max maxr (r + word.length))
                    (vec.filter (fun w => check_filter_after_play_later letters hist1 w))
                    set rem (depth + 1) wc hist1 T (.ok (s5, a5, b5, c5, d5)) b2 hist2 wc2
                    P1 heq
                  cases s5 with
                  | true =>
                    intro s mc2 Mc2 mr2 Mr2 hout
                    simp only [Except.ok.injEq, Prod.mk.injEq] at hout
                    obtain ⟨hs, h1, h2, h3, h4⟩ := hout
                    subst hs h1 h2 h3 h4
                    have posts := spec.1 true a5 b5 c5 d5 rfl rfl
                    exact ⟨rfl, posts.1, posts.2.1, posts.2.2.1, posts.2.2.2⟩
                  | false =>
                    simp only [Bool.false_eq_true, if_false]
                    obtain ⟨_, _, _, _, hb2, hh2⟩ := spec.2 a5 b5 c5 d5 rfl
                    rw [hb2, hh2]
                    have hu : undo_play b1 played hist1 = (b, hist) :=
                      play_then_undo word r c b .Vertical letters hist true played rem
                        .Remaining b1 hist1 hpw
                    rw [hu]
                    exact ih b hist wc2 inv
                case h_2 e b2 hist2 wc2 heq =>
                  intro s mc2 Mc2 mr2 Mr2 hout
                  exact absurd hout (by simp)
              case isFalse hok =>
                have hu : undo_play b1 played hist1 = (b, hist) :=
                  play_then_undo word r c b .Vertical letters hist true played rem
                    .Remaining b1 hist1 hpw
                rw [hu]
                exact ih b hist wc inv

theorem recPost_error (T minc maxc minr maxr : Nat) (b : Board) (hist : Letters)
    (b2 : Board) (hist2 : Letters) :
    RecursePost T minc maxc minr maxr b hist (.error ()) b2 hist2 :=
  ⟨fun _ _ _ _ _ h => absurd h (by simp), fun _ _ _ _ h => absurd h (by simp)⟩

theorem recPost_of_done (T : Nat) (b : Board) (hist : Letters) (minc maxc minr maxr : Nat)
    (out : PFOut) (b2 : Board) (hist2 : Letters) (wc2 : Nat)
    (H : StepSpec T b hist (.done (out, b2, hist2, wc2))) :
    RecursePost T minc maxc minr maxr b hist out b2 hist2 := by
  constructor
  · intro s mc2 Mc2 mr2 Mr2 hout _
    have h := H s mc2 Mc2 mr2 Mr2 hout
    exact ⟨h.2.1, h.2.2.1, h.2.2.2.1, h.2.2.2.2⟩
  · intro mc2 Mc2 mr2 Mr2 hout
    have h := H false mc2 Mc2 mr2 Mr2 hout
    exact absurd h.1 (by simp)

theorem recPost_false (T minc maxc minr maxr : Nat) (b : Board) (hist : Letters) :
    RecursePost T minc maxc minr maxr b hist (.ok (false, minc, maxc, minr, maxr)) b hist := by
  constructor
  · intro s mc2 Mc2 mr2 Mr2 hout hs
    simp only [Except.ok.injEq, Prod.mk.injEq] at hout
    rw [← hout.1] at hs
    exact absurd hs (by simp)
  · intro mc2 Mc2 mr2 Mr2 hout
    simp only [Except.ok.injEq, Prod.mk.injEq, true_and] at hout
    exact ⟨hout.1.symm, hout.2.1.symm, hout.2.2.1.symm, hout.2.2.2.symm, rfl, rfl⟩

theorem tryWords_conserve (recurse : Recurse) (hrec : RecurseSpec recurse)
    (dir : Direction) (minc maxc minr maxr : Nat) (vec set : List Word)
    (letters : Letters) (depth : Nat) (T : Nat) :
    ∀ (ws : List Word) (b : Board) (hist : Letters) (wc : Nat),
    SolveInv b hist minc maxc minr maxr letters T →
    StepSpec T b hist
      (tryWords recurse dir minc maxc minr maxr vec set letters depth ws (b, hist, wc)) := by
  intro ws
  induction ws with
  | nil =>
    intro b hist wc inv
    exact ⟨rfl, rfl⟩
  | cons w ws ih =>
    intro b hist wc inv
    have H := tryPositions_conserve recurse hrec dir minc maxc minr maxr vec set letters
      depth w T (positionsFor dir minc maxc minr maxr w) b hist (wc + 1) inv
    simp only [tryWords]
    split
    case h_1 r hstep =>
      rw [hstep] at H
      exact H
    case h_2 st1 hstep =>
      rw [hstep] at H
      obtain ⟨s1, s2, s3⟩ := st1
      obtain ⟨hb1, hh1⟩ := H
      rw [hb1, hh1]
      exact ih b hist s3 inv

theorem playFurtherF_conserve : ∀ fuel, RecurseSpec (playFurtherF fuel) := by
  intro fuel
  induction fuel with
  | zero =>
    intro b minc maxc minr maxr vec set letters depth wc hist T out b2 hist2 wc2 inv heq
    simp only [playFurtherF, Prod.mk.injEq] at heq
    exact heq.1 ▸ recPost_error T minc maxc minr maxr b hist b2 hist2
  | succ fuel ih =>
    intro b minc maxc minr maxr vec set letters depth wc hist T out b2 hist2 wc2 inv heq
    simp only [playFurtherF] at heq
    split at heq
    · simp only [Prod.mk.injEq] at heq
      exact heq.1 ▸ recPost_error T minc maxc minr maxr b hist b2 hist2
    · split at heq
      · have H1 := tryWords_conserve (playFurtherF fuel) ih .Horizontal minc maxc minr maxr
          vec set letters depth T vec b hist wc inv
        split at heq
        case h_1 r hstep =>
          rw [hstep] at H1
          rw [heq] at H1
          exact recPost_of_done T b hist minc maxc minr maxr out b2 hist2 wc2 H1
        case h_2 b1 hist1 wc1 hstep =>
          rw [hstep] at H1
          obtain ⟨hb1, hh1⟩ := H1
          rw [hb1, hh1] at heq
          have H2 := tryWords_conserve (playFurtherF fuel) ih .Vertical minc maxc minr maxr
            vec set letters depth T vec b hist wc1 inv
          split at heq
          case h_1 r2 hstep2 =>
            rw [hstep2] at H2
            rw [heq] at H2
            exact recPost_of_done T b hist minc maxc minr maxr out b2 hist2 wc2 H2
          case h_2 b1a hist1a wc1a hstep2 =>
            rw [hstep2] at H2
            obtain ⟨hb1a, hh1a⟩ := H2
            simp only [Prod.mk.injEq] at heq
            obtain ⟨ho, hb, hh, _⟩ := heq
            rw [← ho, ← hb, ← hh, hb1a, hh1a]
            exact recPost_false T minc maxc minr maxr b hist
      · have H1 := tryWords_conserve (playFurtherF fuel) ih .Vertical minc maxc minr maxr
          vec set letters depth T vec b hist wc inv
        split at heq
        case h_1 r hstep =>
          rw [hstep] at H1
          rw [heq] at H1
          exact recPost_of_done T b hist minc maxc minr maxr out b2 hist2 wc2 H1
        case h_2 b1 hist1 wc1 hstep =>
          rw [hstep] at H1
          obtain ⟨hb1, hh1⟩ := H1
          rw [hb1, hh1] at heq
          split at heq
          · simp only [Prod.mk.injEq] at heq
            obtain ⟨ho, hb, hh, _⟩ := heq
            rw [← ho, ← hb, ← hh]
            exact recPost_false T minc maxc minr maxr b hist
          · have H2 := tryWords_conserve (playFurtherF fuel) ih .Horizontal minc maxc minr maxr
              vec set letters depth T vec b hist wc1 inv
            split at heq
            case h_1 r2 hstep2 =>
              rw [hstep2] at H2
              rw [heq] at H2
              exact recPost_of_done T b hist minc maxc minr maxr out b2 hist2 wc2 H2
            case h_2 b1a hist1a wc1a hstep2 =>
              rw [hstep2] at H2
              obtain ⟨hb1a, hh1a⟩ := H2
              simp only [Prod.mk.injEq] at heq
              obtain ⟨ho, hb, hh, _⟩ := heq
              rw [← ho, ← hb, ← hh, hb1a, hh1a]
              exact recPost_false T minc maxc minr maxr b hist

theorem root_inv (hand : Letters) (word : Word) (row colst : Nat)
    (hlen : hand.length = 26) (hmk : is_makeable word hand = true) :
    SolveInv (rootPlace row colst word 0 Board.new (List.replicate 26 0) hand).1 (rootPlace row colst word 0 Board.new (List.replicate 26 0) hand).2.1
      colst (colst + (word.length - 1)) row row
      (rootPlace row colst word 0 Board.new (List.replicate 26 0) hand).2.2 (sumL hand) := by
  have hlt : ∀ l ∈ word, l < 26 := by
    intro l hl
    have hx := is_makeable_letters_lt word hand hmk l hl
    rwa [hlen] at hx
  have hsum0 : sumL (word.foldl incL (List.replicate 26 0)) = word.length := by
    rw [sumL_foldl_incL word _ (fun x hx => by
      rw [List.length_replicate]; exact hlt x hx)]
    simp [sumL]
  have hhist := rootPlace_hist row colst word 0 Board.new (List.replicate 26 0) hand
  have huse := rootPlace_use row colst word 0 Board.new (List.replicate 26 0) hand
  have hnd : List.Pairwise (· ≠ ·) ((List.range word.length).map (fun j => (row, colst + j))) := by
    rw [List.pairwise_map]
    exact (List.pairwise_lt_range word.length).imp (fun hab heqp => by
      simp only [Prod.mk.injEq] at heqp
      omega)
  have hinb : ∀ p ∈ ((List.range word.length).map (fun j => (row, colst + j))),
      row ≤ p.1 ∧ p.1 ≤ row ∧ colst ≤ p.2 ∧ p.2 ≤ colst + (word.length - 1) := by
    intro p hp
    simp only [List.mem_map, List.mem_range] at hp
    obtain ⟨j, hj, rfl⟩ := hp
    exact ⟨le_refl _, le_refl _, Nat.le_add_right _ _, by omega⟩
  have hemp : ∀ p ∈ ((List.range word.length).map (fun j => (row, colst + j))), getVal Board.new p.1 p.2 = EMPTY_VALUE :=
    fun _ _ => rfl
  have hval : ∀ p ∈ ((List.range word.length).map (fun j => (row, colst + j))), getVal (rootPlace row colst word 0 Board.new (List.replicate 26 0) hand).1 p.1 p.2 ≠ EMPTY_VALUE := by
    intro p hp
    simp only [List.mem_map, List.mem_range] at hp
    obtain ⟨j, hj, rfl⟩ := hp
    have hv := rootPlace_val row colst word 0 Board.new (List.replicate 26 0) hand j hj
    rw [Nat.zero_add] at hv
    have hgd : word.getD j 0 < 26 := by
      have hm : word.getD j 0 ∈ word := by
        rw [List.getD_eq_getElem word 0 hj]
        exact List.getElem_mem hj
      exact hlt _ hm
    intro hcon
    have hcon2 : getVal (rootPlace row colst word 0 Board.new (List.replicate 26 0) hand).1 row (colst + j) = EMPTY_VALUE := hcon
    rw [hv] at hcon2
    rw [show EMPTY_VALUE = 30 from rfl] at hcon2
    omega
  have hfr : ∀ p : Nat × Nat, p ∉ ((List.range word.length).map (fun j => (row, colst + j))) →
      getVal (rootPlace row colst word 0 Board.new (List.replicate 26 0) hand).1 p.1 p.2 = getVal Board.new p.1 p.2 := by
    intro p hp
    refine rootPlace_frame row colst word 0 Board.new (List.replicate 26 0) hand p.1 p.2 ?_
    intro j hj heqp
    have hpe : p = (row, colst + (0 + j)) := heqp
    apply hp
    rw [hpe]
    simp only [List.mem_map, List.mem_range]
    exact ⟨j, hj, by simp⟩
  have hcount : countBox (rootPlace row colst word 0 Board.new (List.replicate 26 0) hand).1 colst (colst + (word.length - 1)) row row
      = word.length := by
    rw [countBox_writes Board.new (rootPlace row colst word 0 Board.new (List.replicate 26 0) hand).1 ((List.range word.length).map (fun j => (row, colst + j)))
      colst (colst + (word.length - 1)) row row hnd hinb hemp hval hfr,
      countBox_Board_new]
    simp
  have hdec := is_makeable_dec_sum word hand hmk
  refine ⟨?_, ?_, ?_, ?_, ?_, ?_, ?_⟩
  · intro r c hout
    exact rootPlace_frame row colst word 0 Board.new (List.replicate 26 0) hand r c
      (fun j hj heqp => by
        simp only [Prod.mk.injEq] at heqp
        exact hout ⟨by omega, by omega, by omega, by omega⟩)
  · rw [hhist, hsum0]
    exact hcount
  · rw [hhist, huse, hsum0]
    omega
  · rw [hhist, length_foldl_incL]
    simp
  · rw [huse, length_foldl_decL, hlen]
  · omega
  · exact le_refl row

theorem rootLoop_tiles (fuel : Nat) (hand : Letters) (vvec : List Word)
    (hlen : hand.length = 26) :
    ∀ (words : List Word) (wc : Nat),
    (∀ w ∈ words, is_makeable w hand = true) →
    ∀ (board : Board) (mc Mc mr Mr : Nat),
    rootLoop fuel hand vvec words wc = some (board, mc, Mc, mr, Mr) →
    outsideEmpty board mc Mc mr Mr ∧ countBox board mc Mc mr Mr = sumL hand := by
  intro words
  induction words with
  | nil =>
    intro wc _ board mc Mc mr Mr h
    exact absurd h (by simp [rootLoop])
  | cons word rest ih =>
    intro wc hmk board mc Mc mr Mr h
    have hinv := root_inv hand word (BOARD_SIZE / 2) (BOARD_SIZE / 2 - word.length / 2)
      hlen (hmk word (List.mem_cons_self _ _))
    simp only [rootLoop] at h
    split at h
    case isTrue hz =>
      simp only [Option.some.injEq, Prod.mk.injEq] at h
      obtain ⟨hb, h1, h2, h3, h4⟩ := h
      rw [← hb, ← h1, ← h2, ← h3, ← h4]
      refine ⟨hinv.outside, ?_⟩
      have hc := hinv.count_eq
      have hcons := hinv.conserve
      have hz2 := sumL_eq_zero_of_allZero _ hz
      omega
    case isFalse hz =>
      split at h
      case h_1 res2 b2 x wc2 hpf =>
        obtain ⟨s2, a2, b2a, c2, d2⟩ := res2
        cases s2 with
        | false =>
          simp only [Bool.false_eq_true, if_false] at h
          exact ih wc2 (fun w hw => hmk w (List.mem_cons_of_mem _ hw)) board mc Mc mr Mr h
        | true =>
          simp only [if_true, Option.some.injEq, Prod.mk.injEq] at h
          obtain ⟨hb, h1, h2, h3, h4⟩ := h
          have spec := playFurtherF_conserve fuel _ _ _ _ _ _ _ _ _ _ _ (sumL hand)
            _ _ _ _ hinv hpf
          have posts := spec.1 true a2 b2a c2 d2 rfl rfl
          rw [← hb, ← h1, ← h2, ← h3, ← h4]
          exact ⟨posts.1, posts.2.1⟩
      case h_2 e b2 x wc2 hpf =>
        exact ih wc2 (fun w hw => hmk w (List.mem_cons_of_mem _ hw)) board mc Mc mr Mr h

theorem play_bananagrams_tiles (fuel : Nat) (hand : Letters) (dict : List Word)
    (hlen : hand.length = 26) (board : Board) (mc Mc mr Mr : Nat)
    (h : play_bananagrams fuel hand dict = some (board, mc, Mc, mr, Mr)) :
    outsideEmpty board mc Mc mr Mr ∧ countBox board mc Mc mr Mr = sumL hand := by
  simp only [play_bananagrams] at h
  split at h
  · exact absurd h (by simp)
  · exact rootLoop_tiles fuel hand _ hlen _ 0
      (fun w hw => (List.mem_filter.mp hw).2) board mc Mc mr Mr h

theorem play_word_finished_iff (word : Word) (row col : Nat) (b : Board) (dir : Direction)
    (letters hist : Letters) (succ : Bool) (played2 : List (Nat × Nat)) (rem2 : Letters)
    (usage : LetterUsage) (b2 : Board) (hist2 : Letters)
    (h : play_word word row col b dir letters hist
      = (.ok (succ, played2, rem2, usage), b2, hist2))
    (hno : usage ≠ .Overused) :
    (usage = .Finished ↔
      ((∀ j, j < word.length →
          getVal b2 (posOf dir row col j).1 (posOf dir row col j).2 = word.getD j 0)
        ∧ allZero rem2 = true ∧ played2 ≠ []))
    ∧ (usage = .Finished ∨ usage = .Remaining) := by
  obtain ⟨ks, pf⟩ := play_word_spec word row col b dir letters hist succ played2 rem2 usage
    b2 hist2 h
  constructor
  · constructor
    · intro hfin
      have hsz := pf.fin_iff.mp hfin
      refine ⟨?_, hsz.2, ?_⟩
      · intro j hj
        have hfill := pf.succ_filled hsz.1 j hj
        rwa [Nat.zero_add] at hfill
      · have hov := pf.succ_over hsz.1
        have hks : ks ≠ [] := by
          cases hov with
          | inl hfalse => exact absurd hfalse (by simp)
          | inr h2 => exact h2
        obtain ⟨a, as, rfl⟩ := List.exists_cons_of_ne_nil hks
        rw [pf.played_eq]
        simp
    · rintro ⟨hcells, hzero, hne⟩
      cases usage with
      | Finished => rfl
      | Overused => exact absurd rfl hno
      | Remaining =>
        exfalso
        by_cases hs : succ = true
        · have hfin := pf.fin_iff.mpr ⟨hs, hzero⟩
          cases hfin
        · have hs' : succ = false := by
            cases succ
            · rfl
            · exact absurd rfl hs
          have hmm := pf.rem_mismatch hs' rfl
          cases hmm with
          | inl h3 => exact hne h3.2.2
          | inr h3 =>
            obtain ⟨j, hj0, hjlen, hne2⟩ := h3
            refine hne2 ?_
            have hc := hcells j (by omega)
            simpa using hc
  · cases usage with
    | Finished => exact Or.inl rfl
    | Remaining => exact Or.inr rfl
    | Overused => exact absurd rfl hno

/-- C2: corrected form.  Part one: for every non-error `play_word` outcome
whose letter usage is not `Overused`, the usage is `Finished` exactly when
the word's cells all hold the word's letters on the resulting board, the
remaining hand is all zero and at least one new cell was written; any other
such outcome is `Remaining` (the original claim omitted the `Overused`
escape, under which a written cell and an all-zero hand can coexist with a
non-`Finished` usage).  Part two: in every solve reported successful by
`play_bananagrams`, the returned bounding box contains every tile and the
number of tiles on the board equals the number of tiles in the input
hand. -/
theorem C2_finished_iff_tiles :
    (∀ (word : Word) (row col : Nat) (b : Board) (dir : Direction)
       (letters hist : Letters) (succ : Bool) (played2 : List (Nat × Nat))
       (rem2 : Letters) (usage : LetterUsage) (b2 : Board) (hist2 : Letters),
       play_word word row col b dir letters hist
         = (.ok (succ, played2, rem2, usage), b2, hist2) →
       usage ≠ .Overused →
       ((usage = .Finished ↔
           ((∀ j, j < word.length →
               getVal b2 (posOf dir row col j).1 (posOf dir row col j).2 = word.getD j 0)
             ∧ allZero rem2 = true ∧ played2 ≠ []))
         ∧ (usage = .Finished ∨ usage = .Remaining)))
    ∧ (∀ (fuel : Nat) (hand : Letters) (dict : List Word) (board : Board) (mc Mc mr Mr : Nat),
       hand.length = 26 →
       play_bananagrams fuel hand dict = some (board, mc, Mc, mr, Mr) →
       outsideEmpty board mc Mc mr Mr ∧ countBox board mc Mc mr Mr = sumL hand) :=
  ⟨fun word row col b dir letters hist succ played2 rem2 usage b2 hist2 h hno =>
      play_word_finished_iff word row col b dir letters hist succ played2 rem2 usage
        b2 hist2 h hno,
   fun fuel hand dict board mc Mc mr Mr hlen h =>
      play_bananagrams_tiles fuel hand dict hlen board mc Mc mr Mr h⟩

/-- Witness for C2: the hypotheses hold at the one-letter Finished play on
`c3board` and at the successful solve of the two-tile hand `abHand`, where
the tile count of the returned board over its returned box is 3 =
`sumL abHand`. -/
theorem C2_witness :
    (LetterUsage.Finished = LetterUsage.Finished
      ∨ LetterUsage.Finished = LetterUsage.Remaining)
    ∧ countBox ((play_bananagrams 5 abHand abDict).elim Board.new (fun r => r.1))
        71 72 72 74 = sumL abHand :=
  ⟨(C2_finished_iff_tiles.1 [0] 72 71 c3board .Horizontal ((List.replicate 26 0).set 0 1)
      (List.replicate 26 0) true [(72, 71)] (List.replicate 26 0) .Finished
      (play_word [0] 72 71 c3board .Horizontal ((List.replicate 26 0).set 0 1)
        (List.replicate 26 0)).2.1
      (play_word [0] 72 71 c3board .Horizontal ((List.replicate 26 0).set 0 1)
        (List.replicate 26 0)).2.2
      (by rfl) (by decide)).2,
   (C2_finished_iff_tiles.2 5 abHand abDict
      ((play_bananagrams 5 abHand abDict).elim Board.new (fun r => r.1))
      71 72 72 74 (by rfl) (by rfl)).2⟩

theorem runStart_le (get : Nat → Nat) : ∀ c, runStart get c ≤ c := by
  intro c
  induction c with
  | zero => exact Nat.le_refl 0
  | succ c ih =>
    simp only [runStart]
    split
    · exact Nat.le_refl _
    · exact Nat.le_succ_of_le ih

theorem runStart_nonempty (get : Nat → Nat) :
    ∀ c, get c ≠ EMPTY_VALUE →
    ∀ i, runStart get c ≤ i → i ≤ c → get i ≠ EMPTY_VALUE := by
  intro c
  induction c with
  | zero =>
    intro hc i h1 h2
    have : i = 0 := by omega
    subst this
    exact hc
  | succ c ih =>
    intro hc i h1 h2
    rw [runStart] at h1
    by_cases he : get c = EMPTY_VALUE
    · rw [if_pos he] at h1
      have : i = c + 1 := by omega
      subst this
      exact hc
    · rw [if_neg he] at h1
      by_cases hi : i ≤ c
      · exact ih he i h1 hi
      · have : i = c + 1 := by omega
        subst this
        exact hc

theorem runStart_boundary (get : Nat → Nat) :
    ∀ c, runStart get c = 0 ∨ get (runStart get c - 1) = EMPTY_VALUE := by
  intro c
  induction c with
  | zero => exact Or.inl rfl
  | succ c ih =>
    rw [runStart]
    by_cases he : get c = EMPTY_VALUE
    · rw [if_pos he]
      exact Or.inr (by simpa using he)
    · rw [if_neg he]
      exact ih

theorem runEndGo_ge (get : Nat → Nat) : ∀ fuel c, c ≤ runEndGo get c fuel := by
  intro fuel
  induction fuel with
  | zero => intro c; exact Nat.le_refl c
  | succ fuel ih =>
    intro c
    rw [runEndGo]
    split
    · exact Nat.le_refl c
    · exact Nat.le_of_succ_le (ih (c + 1))

theorem runEndGo_le (get : Nat → Nat) : ∀ fuel c, runEndGo get c fuel ≤ c + fuel := by
  intro fuel
  induction fuel with
  | zero => intro c; exact Nat.le_refl c
  | succ fuel ih =>
    intro c
    rw [runEndGo]
    split
    · exact Nat.le_add_right c (fuel + 1)
    · have := ih (c + 1)
      omega

theorem runEndGo_nonempty (get : Nat → Nat) :
    ∀ fuel c, get c ≠ EMPTY_VALUE →
    ∀ i, c ≤ i → i ≤ runEndGo get c fuel → get i ≠ EMPTY_VALUE := by
  intro fuel
  induction fuel with
  | zero =>
    intro c hc i h1 h2
    simp only [runEndGo] at h2
    have : i = c := by omega
    subst this
    exact hc
  | succ fuel ih =>
    intro c hc i h1 h2
    rw [runEndGo] at h2
    by_cases he : get (c + 1) = EMPTY_VALUE
    · rw [if_pos he] at h2
      have : i = c := by omega
      subst this
      exact hc
    · rw [if_neg he] at h2
      by_cases hi : c + 1 ≤ i
      · exact ih (c + 1) he i hi h2
      · have : i = c := by omega
        subst this
        exact hc

theorem runEndGo_boundary (get : Nat → Nat) :
    ∀ fuel c, get (c + fuel + 1) = EMPTY_VALUE →
    get (runEndGo get c fuel + 1) = EMPTY_VALUE := by
  intro fuel
  induction fuel with
  | zero => intro c h; exact h
  | succ fuel ih =>
    intro c h
    rw [runEndGo]
    by_cases he : get (c + 1) = EMPTY_VALUE
    · rw [if_pos he]
      exact he
    · rw [if_neg he]
      exact ih (c + 1) (by
        have h2 : c + 1 + fuel + 1 = c + (fuel + 1) + 1 := by omega
        rw [h2]
        exact h)

theorem lineStart_run (get : Nat → Nat) (lo s : Nat) :
    ∀ c, lo ≤ s → s ≤ c →
    (∀ i, s ≤ i → i ≤ c → get i ≠ EMPTY_VALUE) →
    (s = lo ∨ get (s - 1) = EMPTY_VALUE) →
    max (lineStart get lo c) lo = s
      ∨ (max (lineStart get lo c) lo = s - 1 ∧ get (s - 1) = EMPTY_VALUE) := by
  intro c
  induction c with
  | zero =>
    intro hlo hsc hne hstart
    have hs0 : s = 0 := by omega
    have hlo0 : lo = 0 := by omega
    subst hs0 hlo0
    exact Or.inl rfl
  | succ c ih =>
    intro hlo hsc hne hstart
    rw [lineStart]
    by_cases hlt : lo < c + 1
    · rw [if_pos hlt]
      rw [if_neg (hne (c + 1) hsc (Nat.le_refl _))]
      by_cases hsc2 : s ≤ c
      · exact ih hlo hsc2 (fun i h1 h2 => hne i h1 (Nat.le_succ_of_le h2)) hstart
      · have hs : s = c + 1 := by omega
        have hbound : get c = EMPTY_VALUE := by
          cases hstart with
          | inl h => omega
          | inr h => simpa [hs] using h
        cases c with
        | zero =>
          simp only [lineStart]
          have : lo = 0 := by omega
          subst this
          right
          constructor
          · omega
          · simpa [hs] using hbound
        | succ k =>
          rw [lineStart]
          by_cases hlt2 : lo < k + 1
          · rw [if_pos hlt2, if_pos hbound]
            left
            rw [hs]
            omega
          · rw [if_neg hlt2]
            right
            constructor
            · rw [hs]
              omega
            · simpa [hs] using hbound
    · rw [if_neg hlt]
      left
      omega

theorem scanLine_run_aux (get : Nat → Nat) (stop : Nat) (V : List Word) (s e : Nat)
    (hne : ∀ j, s ≤ j → j ≤ e → get j ≠ EMPTY_VALUE)
    (hend : get (e + 1) = EMPTY_VALUE) (hstop : stop ≤ e) :
    ∀ (n : Nat), ∀ (i : Nat), s ≤ i → i ≤ e + 1 → e + 1 ≤ i + n →
    scanLine get stop V (List.range' i n) ((rustRange s i).map get)
      = !(decide (1 < ((rustRange s (e + 1)).map get).length)
          && !(V.contains ((rustRange s (e + 1)).map get))) := by
  intro n
  induction n with
  | zero =>
    intro i h1 h2 h3
    have hie : i = e + 1 := by omega
    subst hie
    rfl
  | succ n ih =>
    intro i h1 h2 h3
    by_cases hie : i ≤ e
    · rw [List.range'_succ]
      simp only [scanLine]
      rw [if_neg (hne i h1 hie)]
      have hcur : (rustRange s i).map get ++ [get i] = (rustRange s (i + 1)).map get := by
        simp only [rustRange]
        have h4 : i + 1 - s = (i - s) + 1 := by omega
        rw [h4, List.range'_concat, List.map_append]
        have h5 : s + 1 * (i - s) = i := by omega
        rw [h5]
        rfl
      rw [hcur]
      exact ih (i + 1) (by omega) (by omega) (by omega)
    · have hie2 : i = e + 1 := by omega
      subst hie2
      rw [List.range'_succ]
      simp only [scanLine]
      rw [if_pos hend]
      cases hbad : (decide (1 < ((rustRange s (e + 1)).map get).length)
          && !(V.contains ((rustRange s (e + 1)).map get))) with
      | true =>
        simp
      | false =>
        simp only [Bool.false_eq_true, if_false]
        rw [if_pos (Nat.lt_succ_of_le hstop)]
        rfl

theorem scanLine_from (get : Nat → Nat) (lo stop hi : Nat) (V : List Word) (s e c0 : Nat)
    (hlo : lo ≤ s) (hsc0 : s ≤ c0) (hc0e : c0 ≤ e)
    (hne : ∀ i, s ≤ i → i ≤ e → get i ≠ EMPTY_VALUE)
    (hend : get (e + 1) = EMPTY_VALUE)
    (hbound : s = lo ∨ get (s - 1) = EMPTY_VALUE)
    (hstop1 : s ≤ stop) (hstop2 : stop ≤ e) (hehi : e ≤ hi) :
    scanLine get stop V (rustRange (max (lineStart get lo c0) lo) (hi + 1)) []
      = !(decide (1 < (runCells get s e).length)
          && !(V.contains (runCells get s e))) := by
  have hnil : ∀ t, t = s → (rustRange s t).map get = ([] : List Nat) := by
    intro t ht
    subst ht
    simp [rustRange]
  have hls := lineStart_run get lo s c0 hlo hsc0
    (fun i h1 h2 => hne i h1 (Nat.le_trans h2 hc0e)) hbound
  cases hls with
  | inl hm =>
    rw [hm]
    have haux := scanLine_run_aux get stop V s e hne hend hstop2 (hi + 1 - s) s
      (Nat.le_refl s) (by omega) (by omega)
    rw [hnil s rfl] at haux
    exact haux
  | inr hm =>
    obtain ⟨hm1, hm2⟩ := hm
    by_cases hs0 : s = 0
    · exact absurd hm2 (by
        rw [hs0]
        exact hne 0 (by omega) (by omega))
    · rw [hm1]
      have hrange : rustRange (s - 1) (hi + 1) = (s - 1) :: List.range' s (hi + 1 - s) := by
        simp only [rustRange]
        have h4 : hi + 1 - (s - 1) = (hi + 1 - s) + 1 := by omega
        rw [h4, List.range'_succ]
        have h5 : s - 1 + 1 = s := by omega
        rw [h5]
      rw [hrange]
      simp only [scanLine]
      rw [if_pos hm2]
      have hc1 : (decide (1 < ([] : List Nat).length) && !(V.contains ([] : List Nat)))
          = false := by simp
      rw [hc1]
      simp only [Bool.false_eq_true, if_false]
      rw [if_neg (by omega : ¬ stop < s - 1)]
      have haux := scanLine_run_aux get stop V s e hne hend hstop2 (hi + 1 - s) s
        (Nat.le_refl s) (by omega) (by omega)
      rw [hnil s rfl] at haux
      exact haux

theorem bool_check_iff (a : Prop) [Decidable a] (x : Bool) :
    (!(decide a && !x)) = true ↔ (a → x = true) := by
  by_cases h : a <;> cases x <;> simp [h]

theorem all_range_iff (f : Nat → Bool) (a b : Nat) :
    (rustRange a (b + 1)).all f = true ↔ ∀ c, a ≤ c → c ≤ b → f c = true := by
  rw [List.all_eq_true]
  constructor
  · intro h c h1 h2
    exact h c (by
      simp only [rustRange, List.mem_range'_1]
      omega)
  · intro h x hx
    simp only [rustRange, List.mem_range'_1] at hx
    exact h x (by omega) (by omega)

theorem runThrough_facts (get : Nat → Nat) (lo hi c0 c1 : Nat)
    (hc01 : c0 ≤ c1) (hc1hi : c1 ≤ hi)
    (hspan : ∀ i, c0 ≤ i → i ≤ c1 → get i ≠ EMPTY_VALUE)
    (hlo : ∀ i, i < lo → get i = EMPTY_VALUE)
    (hhi : get (hi + 1) = EMPTY_VALUE) :
    IsMaxRun get (runStart get c0) (runEnd get hi c1)
    ∧ runStart get c0 ≤ c0 ∧ c1 ≤ runEnd get hi c1
    ∧ lo ≤ runStart get c0 ∧ runEnd get hi c1 ≤ hi := by
  have hc0 : get c0 ≠ EMPTY_VALUE := hspan c0 (Nat.le_refl _) hc01
  have hc1 : get c1 ≠ EMPTY_VALUE := hspan c1 hc01 (Nat.le_refl _)
  have hsle := runStart_le get c0
  have hege : c1 ≤ runEnd get hi c1 := runEndGo_ge get (hi - c1) c1
  have hele : runEnd get hi c1 ≤ hi := by
    have h6 := runEndGo_le get (hi - c1) c1
    show runEndGo get c1 (hi - c1) ≤ hi
    omega
  have hne : ∀ i, runStart get c0 ≤ i → i ≤ runEnd get hi c1 → get i ≠ EMPTY_VALUE := by
    intro i hi1 hi2
    by_cases ha : i ≤ c0
    · exact runStart_nonempty get c0 hc0 i hi1 ha
    · by_cases hb : i ≤ c1
      · exact hspan i (by omega) hb
      · exact runEndGo_nonempty get (hi - c1) c1 hc1 i (by omega) hi2
  have hend : get (runEnd get hi c1 + 1) = EMPTY_VALUE := by
    refine runEndGo_boundary get (hi - c1) c1 ?_
    have h7 : c1 + (hi - c1) + 1 = hi + 1 := by omega
    rw [h7]
    exact hhi
  have hbound := runStart_boundary get c0
  have hlos : lo ≤ runStart get c0 := by
    by_contra hcon
    exact hne (runStart get c0) (Nat.le_refl _) (by omega)
      (hlo _ (Nat.lt_of_not_le hcon))
  exact ⟨⟨by omega, hne, hend, hbound⟩, hsle, hege, hlos, hele⟩

theorem validH_iff (b : Board) (minc maxc minr maxr row sc ec : Nat) (V : List Word)
    (hout : outsideEmpty b minc maxc minr maxr)
    (h1 : minc ≤ sc) (h2 : ec ≤ maxc) (h3 : minr ≤ row) (h4 : row ≤ maxr) (h5 : sc ≤ ec)
    (hspan : ∀ c, sc ≤ c → c ≤ ec → getVal b row c ≠ EMPTY_VALUE) :
    is_board_valid_horizontal b minc maxc minr maxr row sc ec V = true ↔
      ((1 < (runCells (fun c => getVal b row c) (runStart (fun c => getVal b row c) sc) (runEnd (fun c => getVal b row c) maxc ec)).length → V.contains (runCells (fun c => getVal b row c) (runStart (fun c => getVal b row c) sc) (runEnd (fun c => getVal b row c) maxc ec)) = true)
        ∧ ∀ c, sc ≤ c → c ≤ ec →
          (1 < (runCells (fun r => getVal b r c) (runStart (fun r => getVal b r c) row) (runEnd (fun r => getVal b r c) maxr row)).length → V.contains (runCells (fun r => getVal b r c) (runStart (fun r => getVal b r c) row) (runEnd (fun r => getVal b r c) maxr row)) = true)) := by
  have hrowF := runThrough_facts (fun c => getVal b row c) minc maxc sc ec h5 h2 hspan
    (fun i hi => hout row i (by omega))
    (hout row (maxc + 1) (by omega))
  obtain ⟨⟨hseR, hneR, hendR, hboundR⟩, hsleR, hegeR, hloR, hehiR⟩ := hrowF
  have hscanR := scanLine_from (fun c => getVal b row c) minc ec maxc V
    (runStart (fun c => getVal b row c) sc) (runEnd (fun c => getVal b row c) maxc ec) sc
    hloR hsleR (by omega) hneR hendR
    (by
      cases hboundR with
      | inl h6 => exact Or.inl (by omega)
      | inr h6 => exact Or.inr h6)
    (by omega) (by omega) hehiR
  have hcol : ∀ c, sc ≤ c → c ≤ ec →
      (scanLine (fun r => getVal b r c) row V
          (rustRange (max (lineStart (fun r => getVal b r c) minr row) minr) (maxr + 1)) []
            = true
        ↔ (1 < (runCells (fun r => getVal b r c) (runStart (fun r => getVal b r c) row) (runEnd (fun r => getVal b r c) maxr row)).length → V.contains (runCells (fun r => getVal b r c) (runStart (fun r => getVal b r c) row) (runEnd (fun r => getVal b r c) maxr row)) = true)) := by
    intro c hc1 hc2
    have hcolF := runThrough_facts (fun r => getVal b r c) minr maxr row row
      (Nat.le_refl row) h4
      (fun i hi1 hi2 => by
        have h7 : i = row := by omega
        subst h7
        exact hspan c hc1 hc2)
      (fun i hi => hout i c (by omega))
      (hout (maxr + 1) c (by omega))
    obtain ⟨⟨hseC, hneC, hendC, hboundC⟩, hsleC, hegeC, hloC, hehiC⟩ := hcolF
    rw [scanLine_from (fun r => getVal b r c) minr row maxr V
      (runStart (fun r => getVal b r c) row) (runEnd (fun r => getVal b r c) maxr row) row
      hloC hsleC (by omega) hneC hendC
      (by
        cases hboundC with
        | inl h6 => exact Or.inl (by omega)
        | inr h6 => exact Or.inr h6)
      (by omega) (by omega) hehiC]
    exact bool_check_iff _ _
  simp only [is_board_valid_horizontal]
  rw [Bool.and_eq_true, hscanR, bool_check_iff, all_range_iff]
  constructor
  · rintro ⟨hA, hB⟩
    refine ⟨hA, ?_⟩
    intro c hc1 hc2
    exact (hcol c hc1 hc2).mp (hB c hc1 hc2)
  · rintro ⟨hA, hB⟩
    refine ⟨hA, ?_⟩
    intro c hc1 hc2
    exact (hcol c hc1 hc2).mpr (hB c hc1 hc2)

theorem validV_iff (b : Board) (minc maxc minr maxr sr er col : Nat) (V : List Word)
    (hout : outsideEmpty b minc maxc minr maxr)
    (h1 : minr ≤ sr) (h2 : er ≤ maxr) (h3 : minc ≤ col) (h4 : col ≤ maxc) (h5 : sr ≤ er)
    (hspan : ∀ r, sr ≤ r → r ≤ er → getVal b r col ≠ EMPTY_VALUE) :
    is_board_valid_vertical b minc maxc minr maxr sr er col V = true ↔
      ((1 < (runCells (fun r => getVal b r col) (runStart (fun r => getVal b r col) sr) (runEnd (fun r => getVal b r col) maxr er)).length → V.contains (runCells (fun r => getVal b r col) (runStart (fun r => getVal b r col) sr) (runEnd (fun r => getVal b r col) maxr er)) = true)
        ∧ ∀ r, sr ≤ r → r ≤ er →
          (1 < (runCells (fun c => getVal b r c) (runStart (fun c => getVal b r c) col) (runEnd (fun c => getVal b r c) maxc col)).length → V.contains (runCells (fun c => getVal b r c) (runStart (fun c => getVal b r c) col) (runEnd (fun c => getVal b r c) maxc col)) = true)) := by
  exact validH_iff (fun r c => b c r) minr maxr minc maxc col sr er V
    (fun r c h => hout c r (fun hc => h ⟨hc.2.2.1, hc.2.2.2, hc.1, hc.2.1⟩))
    h1 h2 h3 h4 h5 hspan

/-- C1: corrected form.  The validity scanners do not examine every maximal
run of the touched lines: they check exactly the runs connected to the
just-played word.  Under the stated box hypotheses, the maximal run
containing the played span in the played line, and for each cell of the
span the maximal crossing run through that cell, are computed by
`runStart`/`runEnd`; the scanner returns true if and only if each of these
runs, when of length at least 2, is a member of the valid-word list.
Maximal runs of the played line not connected to the span, and crossing
runs not meeting the span, are never examined (see the counterexample for
C1). -/
theorem C1_connected_runs :
    (∀ (b : Board) (minc maxc minr maxr row sc ec : Nat) (V : List Word),
      outsideEmpty b minc maxc minr maxr →
      minc ≤ sc → ec ≤ maxc → minr ≤ row → row ≤ maxr → sc ≤ ec →
      (∀ c, sc ≤ c → c ≤ ec → getVal b row c ≠ EMPTY_VALUE) →
      (IsMaxRun (fun c => getVal b row c) (runStart (fun c => getVal b row c) sc) (runEnd (fun c => getVal b row c) maxc ec)
          ∧ runStart (fun c => getVal b row c) sc ≤ sc ∧ ec ≤ runEnd (fun c => getVal b row c) maxc ec)
      ∧ (∀ c, sc ≤ c → c ≤ ec →
          IsMaxRun (fun r => getVal b r c) (runStart (fun r => getVal b r c) row) (runEnd (fun r => getVal b r c) maxr row)
          ∧ runStart (fun r => getVal b r c) row ≤ row ∧ row ≤ runEnd (fun r => getVal b r c) maxr row)
      ∧ (is_board_valid_horizontal b minc maxc minr maxr row sc ec V = true ↔
          ((1 < (runCells (fun c => getVal b row c) (runStart (fun c => getVal b row c) sc) (runEnd (fun c => getVal b row c) maxc ec)).length → V.contains (runCells (fun c => getVal b row c) (runStart (fun c => getVal b row c) sc) (runEnd (fun c => getVal b row c) maxc ec)) = true)
            ∧ ∀ c, sc ≤ c → c ≤ ec →
              (1 < (runCells (fun r => getVal b r c) (runStart (fun r => getVal b r c) row) (runEnd (fun r => getVal b r c) maxr row)).length → V.contains (runCells (fun r => getVal b r c) (runStart (fun r => getVal b r c) row) (runEnd (fun r => getVal b r c) maxr row)) = true))))
    ∧ (∀ (b : Board) (minc maxc minr maxr sr er col : Nat) (V : List Word),
      outsideEmpty b minc maxc minr maxr →
      minr ≤ sr → er ≤ maxr → minc ≤ col → col ≤ maxc → sr ≤ er →
      (∀ r, sr ≤ r → r ≤ er → getVal b r col ≠ EMPTY_VALUE) →
      (IsMaxRun (fun r => getVal b r col) (runStart (fun r => getVal b r col) sr) (runEnd (fun r => getVal b r col) maxr er)
          ∧ runStart (fun r => getVal b r col) sr ≤ sr ∧ er ≤ runEnd (fun r => getVal b r col) maxr er)
      ∧ (∀ r, sr ≤ r → r ≤ er →
          IsMaxRun (fun c => getVal b r c) (runStart (fun c => getVal b r c) col) (runEnd (fun c => getVal b r c) maxc col)
          ∧ runStart (fun c => getVal b r c) col ≤ col ∧ col ≤ runEnd (fun c => getVal b r c) maxc col)
      ∧ (is_board_valid_vertical b minc maxc minr maxr sr er col V = true ↔
          ((1 < (runCells (fun r => getVal b r col) (runStart (fun r => getVal b r col) sr) (runEnd (fun r => getVal b r col) maxr er)).length → V.contains (runCells (fun r => getVal b r col) (runStart (fun r => getVal b r col) sr) (runEnd (fun r => getVal b r col) maxr er)) = true)
            ∧ ∀ r, sr ≤ r → r ≤ er →
              (1 < (runCells (fun c => getVal b r c) (runStart (fun c => getVal b r c) col) (runEnd (fun c => getVal b r c) maxc col)).length → V.contains (runCells (fun c => getVal b r c) (runStart (fun c => getVal b r c) col) (runEnd (fun c => getVal b r c) maxc col)) = true)))) := by
  constructor
  · intro b minc maxc minr maxr row sc ec V hout h1 h2 h3 h4 h5 hspan
    refine ⟨?_, ?_, ?_⟩
    · have hF := runThrough_facts (fun c => getVal b row c) minc maxc sc ec h5 h2 hspan
        (fun i hi => hout row i (by omega)) (hout row (maxc + 1) (by omega))
      exact ⟨hF.1, hF.2.1, hF.2.2.1⟩
    · intro c hc1 hc2
      have hF := runThrough_facts (fun r => getVal b r c) minr maxr row row (Nat.le_refl _)
        h4 (fun i hi1 hi2 => by
          have h7 : i = row := by omega
          subst h7
          exact hspan c hc1 hc2)
        (fun i hi => hout i c (by omega)) (hout (maxr + 1) c (by omega))
      exact ⟨hF.1, hF.2.1, hF.2.2.1⟩
    · exact validH_iff b minc maxc minr maxr row sc ec V hout h1 h2 h3 h4 h5 hspan
  · intro b minc maxc minr maxr sr er col V hout h1 h2 h3 h4 h5 hspan
    refine ⟨?_, ?_, ?_⟩
    · have hF := runThrough_facts (fun r => getVal b r col) minr maxr sr er h5 h2 hspan
        (fun i hi => hout i col (by omega)) (hout (maxr + 1) col (by omega))
      exact ⟨hF.1, hF.2.1, hF.2.2.1⟩
    · intro r hr1 hr2
      have hF := runThrough_facts (fun c => getVal b r c) minc maxc col col (Nat.le_refl _)
        h4 (fun i hi1 hi2 => by
          have h7 : i = col := by omega
          subst h7
          exact hspan r hr1 hr2)
        (fun i hi => hout r i (by omega)) (hout r (maxc + 1) (by omega))
      exact ⟨hF.1, hF.2.1, hF.2.2.1⟩
    · exact validV_iff b minc maxc minr maxr sr er col V hout h1 h2 h3 h4 h5 hspan

theorem c1board_outside : outsideEmpty c1board 10 21 72 72 := by
  intro r c h
  show (if r = 72 ∧ c = 21 then 23 else if r = 72 ∧ c = 20 then 23
    else if r = 72 ∧ c = 11 then 1 else if r = 72 ∧ c = 10 then 0
    else EMPTY_VALUE) = EMPTY_VALUE
  rw [if_neg (by omega), if_neg (by omega), if_neg (by omega), if_neg (by omega)]

theorem c1board_span : ∀ c, 10 ≤ c → c ≤ 11 → getVal c1board 72 c ≠ EMPTY_VALUE := by
  intro c h1 h2
  have h3 : c = 10 ∨ c = 11 := by omega
  cases h3 with
  | inl h => subst h; decide
  | inr h => subst h; decide

/-- Witness for C1: on the fixture board the run containing the played
span (columns 10-11 of row 72, the word AB) is indeed reported in the
valid list by the characterization. -/
theorem C1_witness :
    ([[0, 1]] : List Word).contains
      (runCells (fun c => getVal c1board 72 c) (runStart (fun c => getVal c1board 72 c) 10)
        (runEnd (fun c => getVal c1board 72 c) 21 11)) = true :=
  ((C1_connected_runs.1 c1board 10 21 72 72 72 10 11 [[0, 1]] c1board_outside
      (by decide) (by decide) (by decide) (by decide) (by decide) c1board_span).2.2.mp
    (by rfl)).1 (by decide)

end Bananagrams
